import Mathlib

/-!
Verification of `prefect/tasks/databricks/databricks_submitjob.py`.

The development shallowly embeds the module's pure core:
* `PyVal` models the JSON-like Python values the module manipulates
  (strings, integer numbers, booleans, `None`, lists, dicts, and opaque
  objects of any other type).  Python dicts are modelled as insertion
  ordered association lists, which is how CPython dicts behave.
* `_deep_string_coerce` mirrors the leaf-coercion routine of the same
  name (lines 21-50 of the source), including the defective dict branch
  whose `json_path` argument is the literal text `f{json_path}[{k}]`
  rather than an interpolated f-string.
* `_deep_from_dict` mirrors the structural decoder of the same name
  (lines 94-134), `_handle_databricks_task_execution` the polling loop
  (lines 53-86), and the `run` methods' parameter merges are embedded as
  explicit functions over the dict model.
-/

namespace Databricks

mutual

inductive PyVal where
  | str (s : String)
  | int (n : Int)
  | bool (b : Bool)
  | null
  | list (xs : PyList)
  | dict (kvs : PyDict)
  | obj (tyName : String)

inductive PyList where
  | nil
  | cons (hd : PyVal) (tl : PyList)

inductive PyDict where
  | nil
  | cons (key : String) (val : PyVal) (tl : PyDict)

end

deriving instance DecidableEq for PyVal, PyList, PyDict

/-- First-match lookup, the observable behaviour of `d[k]` / `d.get(k)`
on a CPython dict (keys are unique there, so first match is the match). -/
def PyDict.lookup : PyDict → String → Option PyVal
  | .nil, _ => none
  | .cons k v tl, key => if k == key then some v else tl.lookup key

/-- `key in d`. -/
def PyDict.hasKey (d : PyDict) (key : String) : Bool :=
  (d.lookup key).isSome

/-- Replace the value stored at `key`, keeping its position. -/
def PyDict.replace : PyDict → String → PyVal → PyDict
  | .nil, _, _ => .nil
  | .cons k w tl, key, v => .cons k (if k == key then v else w) (tl.replace key v)

/-- Append a fresh binding at the end. -/
def PyDict.push : PyDict → String → PyVal → PyDict
  | .nil, key, v => .cons key v .nil
  | .cons k w tl, key, v => .cons k w (tl.push key v)

/-- `d[key] = v` on a CPython dict: an existing key keeps its position,
a new key goes to the end. -/
def PyDict.set (d : PyDict) (key : String) (v : PyVal) : PyDict :=
  if d.hasKey key then d.replace key v else d.push key v

/-- `d.update(np)`: iterate over `np` assigning each binding into `d`. -/
def PyDict.update (d : PyDict) : PyDict → PyDict
  | .nil => d
  | .cons k v tl => (d.set k v).update tl

/-- Insertion-ordered key list of a dict. -/
def PyDict.keys : PyDict → List String
  | .nil => []
  | .cons k _ tl => k :: tl.keys

mutual

/-- Embedding of `_deep_string_coerce` (source lines 21-50).  Strings and
`None` pass through, numbers and booleans become `str(x)` (`True` /
`False` for booleans, since Python `bool` is an `int`), lists recurse
element-wise extending the path with the index, dicts recurse value-wise.
The dict branch reproduces the source verbatim: its recursive call
passes `json_path="f\x7bjson_path\x7d[\x7bk\x7d]"`, a literal string
(the `f` prefix is inside the quotes), so the accumulated path is
discarded at every dict level.  Any other value raises `ValueError`. -/
def _deep_string_coerce (content : PyVal) (json_path : String) : Except String PyVal :=
  match content with
  | .str s => .ok (.str s)
  | .int n => .ok (.str (toString n))
  | .bool b => .ok (.str (if b then "True" else "False"))
  | .null => .ok .null
  | .list xs => (coerceItems xs json_path 0).map .list
  | .dict kvs => (coerceValues kvs).map .dict
  | .obj ty =>
      .error ("Type " ++ ty ++ " used for parameter " ++ json_path ++
        " is not a number or a string")

/-- The list comprehension of `_deep_string_coerce`: element `i` is
coerced under path `f"{json_path}[{i}]"`. -/
def coerceItems (xs : PyList) (json_path : String) (i : Nat) : Except String PyList :=
  match xs with
  | .nil => .ok .nil
  | .cons x tl => do
      let y ← _deep_string_coerce x (json_path ++ "[" ++ toString i ++ "]")
      let ys ← coerceItems tl json_path (i + 1)
      return .cons y ys

/-- The dict comprehension of `_deep_string_coerce`: every value is
coerced under the literal path text `f{json_path}[{k}]` (source line 44
lacks the f-string prefix and names an unbound `k`). -/
def coerceValues (kvs : PyDict) : Except String PyDict :=
  match kvs with
  | .nil => .ok .nil
  | .cons k v tl => do
      let w ← _deep_string_coerce v "f\x7bjson_path\x7d[\x7bk\x7d]"
      let ws ← coerceValues tl
      return .cons k w ws

end

mutual

/-- A value built only from strings, numbers, booleans, `None`, lists and
dicts — no leaf of any other Python type. -/
def wellFormed : PyVal → Bool
  | .obj _ => false
  | .list xs => wellFormedL xs
  | .dict kvs => wellFormedD kvs
  | _ => true

def wellFormedL : PyList → Bool
  | .nil => true
  | .cons x tl => wellFormed x && wellFormedL tl

def wellFormedD : PyDict → Bool
  | .nil => true
  | .cons _ v tl => wellFormed v && wellFormedD tl

end

mutual

/-- A wire tree: every leaf is a string or `None`. -/
def isWire : PyVal → Bool
  | .str _ => true
  | .null => true
  | .list xs => isWireL xs
  | .dict kvs => isWireD kvs
  | _ => false

def isWireL : PyList → Bool
  | .nil => true
  | .cons x tl => isWire x && isWireL tl

def isWireD : PyDict → Bool
  | .nil => true
  | .cons _ v tl => isWire v && isWireD tl

end

mutual

/-- Structure of a value with every leaf erased to `None`: lists keep
their length and order, dicts keep their keys in order. -/
def skeleton : PyVal → PyVal
  | .list xs => .list (skeletonL xs)
  | .dict kvs => .dict (skeletonD kvs)
  | _ => .null

def skeletonL : PyList → PyList
  | .nil => .nil
  | .cons x tl => .cons (skeleton x) (skeletonL tl)

def skeletonD : PyDict → PyDict
  | .nil => .nil
  | .cons k v tl => .cons k (skeleton v) (skeletonD tl)

end

/-- A sample caller value exercising every supported leaf type. -/
def exWireVal : PyVal :=
  .dict (.cons "a"
    (.list (.cons (.int 3) (.cons (.bool true) (.cons .null (.cons (.str "x") .nil)))))
    .nil)

/-- Modelled from the spec: run states reported by the remote service.
`DatabricksHook.get_run_state` and its `RunState` class live outside
`src/`; the spec partitions states into non-terminal and terminal, and
terminal states into successful and failed. -/
inductive RunState where
  | pending
  | running
  | success
  | failed
deriving DecidableEq

def RunState.isTerminal : RunState → Bool
  | .success => true
  | .failed => true
  | _ => false

def RunState.isSuccessful : RunState → Bool
  | .success => true
  | _ => false

/-- Modelled from the spec: the human-readable description of a run
state interpolated into log and error messages. -/
def RunState.describe : RunState → String
  | .pending => "PENDING"
  | .running => "RUNNING"
  | .success => "SUCCESS"
  | .failed => "FAILED"

inductive MonitorOutcome where
  | success (polls : Nat)
  | failure (polls : Nat) (msg : String)
deriving DecidableEq

/-- One iteration of the `while True` loop of
`_handle_databricks_task_execution` (source lines 70-86) per scripted
state: each iteration issues one status query; a terminal successful
state returns, a terminal failed state raises `PrefectException` with
the message `"{task.name} failed with terminal state: {run_state}"`,
and a non-terminal state sleeps and polls again.  `none` means the
script ran out before a terminal state was observed. -/
def monitorLoop (taskName : String) (polls : Nat) : List RunState → Option MonitorOutcome
  | [] => none
  | s :: rest =>
      if s.isTerminal then
        if s.isSuccessful then
          some (.success (polls + 1))
        else
          some (.failure (polls + 1)
            (taskName ++ " failed with terminal state: " ++ s.describe))
      else monitorLoop taskName (polls + 1) rest

def _handle_databricks_task_execution (taskName : String) (script : List RunState) :
    Option MonitorOutcome :=
  monitorLoop taskName 0 script

/-- `DatabricksSubmitRun.run` after submission (source lines 451-454):
the monitor's success lets `run` return `submitted_run_id`, the
monitor's failure propagates as the raised exception. -/
def submitRunOutcome (runId taskName : String) (script : List RunState) :
    Option (Except String String) :=
  match _handle_databricks_task_execution taskName script with
  | some (.success _) => some (.ok runId)
  | some (.failure _ msg) => some (.error msg)
  | none => none

def mkOutcome (taskName : String) (polls : Nat) (s : RunState) : MonitorOutcome :=
  if s.isSuccessful then .success polls
  else .failure polls (taskName ++ " failed with terminal state: " ++ s.describe)

/-- `if x is not None: j[key] = x`, the shape of every named-parameter
assignment in the two `run` methods. -/
def setOpt (j : PyDict) (key : String) : Option PyVal → PyDict
  | some v => j.set key v
  | none => j

/-- The seven named-parameter assignments of `DatabricksSubmitRun.run`
(source lines 430-443), in source order. -/
def submitRunSets (json : PyDict) (spark_jar_task notebook_task new_cluster
    existing_cluster_id libraries : Option PyVal) (run_name : Option String)
    (timeout_seconds : Option PyVal) : PyDict :=
  setOpt (setOpt (setOpt (setOpt (setOpt (setOpt (setOpt json
    "spark_jar_task" spark_jar_task)
    "notebook_task" notebook_task)
    "new_cluster" new_cluster)
    "existing_cluster_id" existing_cluster_id)
    "libraries" libraries)
    "run_name" (run_name.map .str))
    "timeout_seconds" timeout_seconds

/-- The named-parameter merge of `DatabricksSubmitRun.run` (source lines
430-445): each supplied named parameter is written over the top-level
json key of the same name, and the default `run_name` (source line 444:
`run_name or "Run Submitted by Prefect"`, so an empty string also falls
back) is filled in only when the key is still absent afterwards. -/
def DatabricksSubmitRun_merge (json : PyDict) (spark_jar_task notebook_task new_cluster
    existing_cluster_id libraries : Option PyVal) (run_name : Option String)
    (timeout_seconds : Option PyVal) : PyDict :=
  let j := submitRunSets json spark_jar_task notebook_task new_cluster
    existing_cluster_id libraries run_name timeout_seconds
  if j.hasKey "run_name" then j
  else
    j.set "run_name" (.str (match run_name with
      | some s => if s == "" then "Run Submitted by Prefect" else s
      | none => "Run Submitted by Prefect"))

/-- Source lines 769-772: `merged = run_now_json.setdefault("notebook_params",
{})` fetches the raw mapping (or installs an empty one at the end),
`merged.update(notebook_params)` merges the override into it key by key
(raising `AttributeError` when the raw value is not a mapping), and the
result is stored back at the key's position. -/
def notebookStep (j0 : PyDict) : Option PyDict → Except String PyDict
  | none => pure j0
  | some np =>
    match j0.lookup "notebook_params" with
    | some (.dict m) => pure (j0.set "notebook_params" (.dict (m.update np)))
    | some _ => Except.error "AttributeError: object has no attribute update"
    | none => pure (j0.set "notebook_params" (.dict (PyDict.nil.update np)))

/-- The named-parameter merge of `DatabricksRunNow.run` (source lines
767-778).  Every named parameter replaces its top-level key wholesale,
except `notebook_params`: `run_now_json.setdefault("notebook_params",
{})` fetches the raw mapping (or installs an empty one), `.update`
merges the override into it key by key, and the result is stored back.
A raw `notebook_params` that is not a mapping makes `.update` raise
`AttributeError`. -/
def DatabricksRunNow_merge (json : PyDict) (job_id : Option PyVal)
    (notebook_params : Option PyDict) (python_params spark_submit_params
    jar_params : Option PyVal) : Except String PyDict := do
  let j0 := setOpt json "job_id" job_id
  let j1 ← notebookStep j0 notebook_params
  let j2 := setOpt j1 "python_params" python_params
  let j3 := setOpt j2 "spark_submit_params" spark_submit_params
  let j4 := setOpt j3 "jar_params" jar_params
  return j4

/-- A store of dict objects; a `Nat` index is a Python object reference.
Only the identity of the top-level json dict matters to the frame
claims, so only those dicts live in the store. -/
structure Heap where
  dicts : List PyDict

def Heap.get (h : Heap) (r : Nat) : PyDict :=
  h.dicts.getD r .nil

def Heap.set (h : Heap) (r : Nat) (d : PyDict) : Heap :=
  ⟨h.dicts.set r d⟩

structure RunEffects where
  heap : Heap
  selfJson : Except String PyVal

/-- `DatabricksSubmitRun.run` (source lines 420-448) for a caller that
passes a truthy `json` dict held at reference `jsonRef`: line 421
(`self.json = json`) makes the task attribute an alias of the caller's
object, lines 430-445 assign through that alias, and line 448 rebinds
`self.json` to the freshly built coerced tree, leaving the caller's
object holding the merged (uncoerced) dict. -/
def DatabricksSubmitRun_run (h : Heap) (jsonRef : Nat) (spark_jar_task notebook_task
    new_cluster existing_cluster_id libraries : Option PyVal) (run_name : Option String)
    (timeout_seconds : Option PyVal) : RunEffects :=
  let merged := DatabricksSubmitRun_merge (h.get jsonRef) spark_jar_task notebook_task
    new_cluster existing_cluster_id libraries run_name timeout_seconds
  { heap := h.set jsonRef merged
    selfJson := _deep_string_coerce (.dict merged) "json" }

/-- `DatabricksRunNow.run` (source lines 761-781) for a caller that
passes a truthy `json` dict held at reference `jsonRef`: `run_now_json`
is the caller's object, the merge assigns through it, and `self.json`
is bound to the coerced tree. -/
def DatabricksRunNow_run (h : Heap) (jsonRef : Nat) (job_id : Option PyVal)
    (notebook_params : Option PyDict) (python_params spark_submit_params
    jar_params : Option PyVal) : Except String RunEffects := do
  let merged ← DatabricksRunNow_merge (h.get jsonRef) job_id notebook_params
    python_params spark_submit_params jar_params
  return { heap := h.set jsonRef merged
           selfJson := _deep_string_coerce (.dict merged) "json" }

mutual

/-- The runtime type descriptions `_deep_from_dict` dispatches on, made
explicit: `prim` is any unsubscripted primitive annotation, `enum` an
`Enum` subclass listed as `(member name, member value)` pairs (the
module's enums are string-valued), `record` a dataclass with its fields
in declaration order, `listOf` a `List[T]` annotation and `union` a
`Union[...]` annotation with its alternatives in declared order. -/
inductive Schema where
  | prim
  | enum (ename : String) (members : List (String × String))
  | record (rname : String) (flds : Fields)
  | listOf (t : Schema)
  | union (alts : Alts)

/-- Dataclass fields: name, whether the annotation was `Optional[...]`
(already unwrapped to the inner type, as source lines 126-129 do before
recursing), and the (inner) field type. -/
inductive Fields where
  | nil
  | cons (key : String) (opt : Bool) (ty : Schema) (tl : Fields)

inductive Alts where
  | nil
  | cons (hd : Schema) (tl : Alts)

end

mutual

/-- Values produced by `_deep_from_dict`: untouched primitives (or any
input returned unchanged by the fall-through at source line 134), enum
members, dataclass instances and lists. -/
inductive DVal where
  | prim (v : PyVal)
  | enumMember (ename mname : String) (value : String)
  | record (rname : String) (flds : DFields)
  | list (xs : DList)

inductive DList where
  | nil
  | cons (hd : DVal) (tl : DList)

inductive DFields where
  | nil
  | cons (key : String) (val : DVal) (tl : DFields)

end

deriving instance DecidableEq for DVal, DList, DFields

/-- The exceptions `_deep_from_dict` can raise: `KeyError` from
`Enum[name]` lookup (source lines 104 and 116) or from the field-type
lookup `field_types[key]` (source line 125), `IndexError` from
`get_args(...)[0]` on an unsubscripted annotation (source line 101),
`AttributeError` from `input.keys()` on a non-mapping (source line 110),
and `TypeError` from calling the dataclass constructor without a
required argument (source line 132). -/
inductive DecErr where
  | keyError (key : String)
  | indexError
  | attributeError
  | typeError (key : String)
deriving DecidableEq

def Fields.names : Fields → List String
  | .nil => []
  | .cons k _ _ tl => k :: tl.names

/-- Python `set(a) == set(b)` on two key lists. -/
def sameKeySet (a b : List String) : Bool :=
  a.all (fun x => b.contains x) && b.all (fun x => a.contains x)

/-- Source lines 114-115: `any(item.value == input for item in member)`;
the module's enum values are strings, so only a string input can ever
compare equal. -/
def enumValueMatches (members : List (String × String)) (v : PyVal) : Bool :=
  members.any (fun m => match v with | .str s => s == m.2 | _ => false)

/-- The text a value contributes to a `KeyError` payload. -/
def pyDisplay : PyVal → String
  | .str s => s
  | .int n => toString n
  | .bool b => if b then "True" else "False"
  | .null => "None"
  | .list _ => "<list>"
  | .dict _ => "<dict>"
  | .obj t => t

/-- `Enum[input]`: member lookup by NAME (source lines 104 and 116).  A
non-string input, or a string that is no member's name, raises
`KeyError` — even when the string equals some member's value. -/
def enumByName (ename : String) (members : List (String × String)) (v : PyVal) :
    Except DecErr DVal :=
  match v with
  | .str s =>
      match members.find? (fun m => m.1 == s) with
      | some m => .ok (.enumMember ename m.1 m.2)
      | none => .error (.keyError s)
  | _ => .error (.keyError (pyDisplay v))

def lookupArg (args : List (String × DVal)) (k : String) : Option DVal :=
  (args.find? (fun a => a.1 == k)).map (fun a => a.2)

/-- Modelled from the spec for the constructor call
`desired_dataclass(**dataclass_args)` (source line 132): the dataclass
definitions live in `models.py`, outside `src/`; per the spec, fields
absent from the input are left at the target type's default — `None`
for optional fields — and a missing required field is a constructor
`TypeError`. -/
def buildFields : Fields → List (String × DVal) → Except DecErr DFields
  | .nil, _ => .ok .nil
  | .cons k o _ tl, args => do
      let rest ← buildFields tl args
      match lookupArg args k with
      | some d => return .cons k d rest
      | none => if o then return .cons k (.prim .null) rest else .error (.typeError k)

/-- The list comprehension of source line 101, with the element decoder
abstracted out. -/
def mapDecodeList (f : PyVal → Except DecErr DVal) : PyList → Except DecErr DList
  | .nil => .ok .nil
  | .cons x tl => do
      let d ← f x
      let ds ← mapDecodeList f tl
      return .cons d ds

/-- The `for key, value in input.items()` loop of source lines 124-131,
with the per-entry decoder abstracted out. -/
def mapDecodeDict (f : String → PyVal → Except DecErr DVal) :
    PyDict → Except DecErr (List (String × DVal))
  | .nil => .ok []
  | .cons k v tl => do
      let d ← f k v
      let rest ← mapDecodeDict f tl
      return (k, d) :: rest

mutual

/-- Embedding of `_deep_from_dict` (source lines 94-134), preserving the
source's branch order: (1) a list input recurses element-wise against
`get_args(desired)[0]` — the element type of a `List[T]`, the FIRST
alternative of a `Union`, and an `IndexError` for anything
unsubscripted; (2) an `Enum` target is looked up by name; (3) a `Union`
target walks its alternatives in declared order (`decodeUnion`); (4) a
dict input against a dataclass target decodes each entry under the
field's declared (optionality-unwrapped) type and calls the
constructor; (5) anything else is returned unchanged. -/
def _deep_from_dict : Schema → PyVal → Except DecErr DVal
  | .listOf t, .list xs => (mapDecodeList (fun x => _deep_from_dict t x) xs).map .list
  | .union alts, .list xs => decodeUnionList alts xs
  | _, .list _ => .error .indexError
  | .enum en ms, v => enumByName en ms v
  | .union alts, v => decodeUnion alts v
  | .record rn flds, .dict kvs =>
      (mapDecodeDict (fun k v => decodeField flds k v) kvs).bind
        (fun args => (buildFields flds args).map (fun df => .record rn df))
  | _, v => .ok (.prim v)

/-- Source line 101 for a `Union` target: `get_args(Union[...])` is the
alternative tuple, so a list input is decoded element-wise against the
first alternative; an empty union cannot arise in Python. -/
def decodeUnionList : Alts → PyList → Except DecErr DVal
  | .nil, _ => .error .indexError
  | .cons a _, xs => (mapDecodeList (fun x => _deep_from_dict a x) xs).map .list

/-- The `for member in get_args(desired_dataclass)` loop of source lines
108-116: a dataclass alternative is taken iff its field-name set equals
the input's key set (`set(input.keys())` raises `AttributeError` on a
non-mapping); an enum alternative is taken iff some member's value
equals the input, and is then looked up BY NAME; any other alternative
is skipped.  Falling off the loop reaches source line 134 and returns
the input unchanged (a `Union` is not a dataclass, so line 117's branch
cannot fire). -/
def decodeUnion : Alts → PyVal → Except DecErr DVal
  | .nil, input => .ok (.prim input)
  | .cons m rest, input =>
      match m with
      | .record _ flds =>
          match input with
          | .dict kvs =>
              if sameKeySet (Fields.names flds) kvs.keys then
                _deep_from_dict m input
              else decodeUnion rest input
          | _ => .error .attributeError
      | .enum en ms =>
          if enumValueMatches ms input then enumByName en ms input
          else decodeUnion rest input
      | _ => decodeUnion rest input

/-- `field_types[key]` followed by the recursive decode (source lines
125-131): an input key that is no declared field raises `KeyError`. -/
def decodeField : Fields → String → PyVal → Except DecErr DVal
  | .nil, k, _ => .error (.keyError k)
  | .cons k' _ t tl, k, v =>
      if k' == k then _deep_from_dict t v else decodeField tl k v

end

mutual

/-- Re-encoding of a decoded value, following the spec's round-trip
statement and `asdict` (source line 1104): records back to mappings
with every declared field in declaration order, enum members back to
their underlying values, sequences element-wise, primitives unchanged. -/
def encodeDVal : DVal → PyVal
  | .prim v => v
  | .enumMember _ _ val => .str val
  | .record _ flds => .dict (encodeDFields flds)
  | .list xs => .list (encodeDList xs)

def encodeDList : DList → PyList
  | .nil => .nil
  | .cons x tl => .cons (encodeDVal x) (encodeDList tl)

def encodeDFields : DFields → PyDict
  | .nil => .nil
  | .cons k d tl => .cons k (encodeDVal d) (encodeDFields tl)

end

/-- The loop conditions of source lines 110 and 115: whether one union
alternative matches the input. -/
def altMatches : Schema → PyVal → Bool
  | .record _ flds, .dict kvs => sameKeySet (Fields.names flds) kvs.keys
  | .record _ _, _ => false
  | .enum _ ms, v => enumValueMatches ms v
  | _, _ => false

def altsNoMatch : Alts → PyVal → Bool
  | .nil, _ => true
  | .cons m rest, v => !altMatches m v && altsNoMatch rest v

def nodupKeys : List String → Bool
  | [] => true
  | k :: tl => !tl.contains k && nodupKeys tl

mutual

/-- Schema sanity for the round-trip theorem: every enum member's value
equals its name (true of the module's string enums, whose members are
spelled `NAME = "NAME"`), and record field names are duplicate-free. -/
def wfSchema : Schema → Bool
  | .prim => true
  | .enum _ ms => ms.all (fun m => m.1 == m.2)
  | .record _ flds => nodupKeys (Fields.names flds) && wfFields flds
  | .listOf t => wfSchema t
  | .union alts => wfAlts alts

def wfFields : Fields → Bool
  | .nil => true
  | .cons _ _ t tl => wfSchema t && wfFields tl

def wfAlts : Alts → Bool
  | .nil => true
  | .cons m tl => wfSchema m && wfAlts tl

end

def allList (f : PyVal → Bool) : PyList → Bool
  | .nil => true
  | .cons x tl => f x && allList f tl

def allDictVals (f : String → PyVal → Bool) : PyDict → Bool
  | .nil => true
  | .cons k v tl => f k v && allDictVals f tl

mutual

/-- Input completeness along the decoder's own traversal: every record
the decoder actually reaches receives all of its declared fields, and
its mapping input has duplicate-free keys.  (Absent fields are left at
their defaults, and a defaulted `None` under an enum or union-of-record
field type makes the re-decode of the re-encoding fail, so the
round-trip claim needs this.) -/
def ready : Schema → PyVal → Bool
  | .listOf t, .list xs => allList (fun x => ready t x) xs
  | .union alts, .list xs => readyUnionList alts xs
  | _, .list _ => true
  | .enum _ _, _ => true
  | .union alts, v => readyUnion alts v
  | .record _ flds, .dict kvs =>
      (Fields.names flds).all (fun k => kvs.keys.contains k) &&
      nodupKeys kvs.keys &&
      allDictVals (fun k v => readyField flds k v) kvs
  | _, _ => true

def readyUnionList : Alts → PyList → Bool
  | .nil, _ => true
  | .cons a _, xs => allList (fun x => ready a x) xs

def readyUnion : Alts → PyVal → Bool
  | .nil, _ => true
  | .cons m rest, v =>
      match m with
      | .record _ flds =>
          match v with
          | .dict kvs =>
              if sameKeySet (Fields.names flds) kvs.keys then ready m v
              else readyUnion rest v
          | _ => true
      | .enum _ ms => if enumValueMatches ms v then true else readyUnion rest v
      | _ => readyUnion rest v

def readyField : Fields → String → PyVal → Bool
  | .nil, _, _ => true
  | .cons k' _ t tl, k, v => if k' == k then ready t v else readyField tl k v

end

/-- What the union walk does with the alternative it selects: a
dataclass alternative is decoded recursively, an enum alternative is
looked up by name. -/
def applyAlt : Schema → PyVal → Except DecErr DVal
  | .record rn flds, v => _deep_from_dict (.record rn flds) v
  | .enum en ms, v => enumByName en ms v
  | _, v => .ok (.prim v)

def fieldsXY : Fields := .cons "x" false .prim (.cons "y" false .prim .nil)

def fieldsXYZ : Fields :=
  .cons "x" false .prim (.cons "y" false .prim (.cons "z" false .prim .nil))

def sA : Schema := .record "A" fieldsXY

def sB : Schema := .record "B" fieldsXYZ

def kvsXYZ : PyDict := .cons "x" (.int 1) (.cons "y" (.int 2) (.cons "z" (.int 3) .nil))

def decodedB : DVal :=
  .record "B" (.cons "x" (.prim (.int 1)) (.cons "y" (.prim (.int 2))
    (.cons "z" (.prim (.int 3)) .nil)))

/-- An enum whose member name differs from its underlying value. -/
def sEnumAb : Schema := .enum "E" [("A", "b")]

def recX : Schema := .record "A" (.cons "x" false .prim .nil)

def dictY : PyDict := .cons "y" (.int 1) .nil

/-- How re-encoding can change a value: not at all, or a mapping whose
key set is unchanged (records come back with their declared field
names, which decode-success plus completeness makes the same set), or a
list (element-wise).  This is the invariant that keeps the union walk
of a re-decode selecting the same alternative. -/
def shapeRel (v w : PyVal) : Prop :=
  w = v ∨
  (∃ kvs kvs', v = .dict kvs ∧ w = .dict kvs' ∧ sameKeySet kvs'.keys kvs.keys = true) ∨
  (∃ xs ys, v = .list xs ∧ w = .list ys)

def MemL (x : PyVal) : PyList → Prop
  | .nil => False
  | .cons y tl => x = y ∨ MemL x tl

def MemA (m : Schema) : Alts → Prop
  | .nil => False
  | .cons y tl => m = y ∨ MemA m tl

/-- `field_types[key]` as a lookup: the declared (optionality,
unwrapped type) of a field name. -/
def Fields.lookupTy : Fields → String → Option (Bool × Schema)
  | .nil, _ => none
  | .cons k' o t tl, k => if k' == k then some (o, t) else tl.lookupTy k

def DFields.keys : DFields → List String
  | .nil => []
  | .cons k _ tl => k :: tl.keys

/-- The decoded record's fields, flattened to the argument-list shape
`mapDecodeDict` produces. -/
def dfToArgs : DFields → List (String × DVal)
  | .nil => []
  | .cons k dv tl => (k, dv) :: dfToArgs tl

/-- Round-trip property of one (schema, input) pair: any successful
decode re-decodes its own re-encoding to the same value, and the
re-encoding relates to the input by `shapeRel`. -/
def RT (s : Schema) (v : PyVal) : Prop :=
  ∀ d, wfSchema s = true → ready s v = true → _deep_from_dict s v = .ok d →
    _deep_from_dict s (encodeDVal d) = .ok d ∧ shapeRel v (encodeDVal d)

mutual

theorem coerce_wellFormed : ∀ (v : PyVal) (p : String), wellFormed v = true →
    ∃ r, _deep_string_coerce v p = .ok r ∧ isWire r = true ∧ skeleton r = skeleton v
  | .str s, _, _ => ⟨.str s, rfl, rfl, rfl⟩
  | .int n, _, _ => ⟨.str (toString n), rfl, rfl, rfl⟩
  | .bool b, _, _ => ⟨.str (if b then "True" else "False"), rfl, rfl, rfl⟩
  | .null, _, _ => ⟨.null, rfl, rfl, rfl⟩
  | .list xs, p, h => by
      obtain ⟨rs, h1, h2, h3⟩ := coerce_wellFormedL xs p 0 h
      refine ⟨.list rs, ?_, h2, ?_⟩
      · show (coerceItems xs p 0).map PyVal.list = _
        rw [h1]; rfl
      · show PyVal.list (skeletonL rs) = PyVal.list (skeletonL xs)
        rw [h3]
  | .dict kvs, _, h => by
      obtain ⟨rs, h1, h2, h3⟩ := coerce_wellFormedD kvs h
      refine ⟨.dict rs, ?_, h2, ?_⟩
      · show (coerceValues kvs).map PyVal.dict = _
        rw [h1]; rfl
      · show PyVal.dict (skeletonD rs) = PyVal.dict (skeletonD kvs)
        rw [h3]

theorem coerce_wellFormedL : ∀ (xs : PyList) (p : String) (i : Nat), wellFormedL xs = true →
    ∃ rs, coerceItems xs p i = .ok rs ∧ isWireL rs = true ∧ skeletonL rs = skeletonL xs
  | .nil, _, _, _ => ⟨.nil, rfl, rfl, rfl⟩
  | .cons x tl, p, i, h => by
      have hx : wellFormed x = true := by
        have := h; simp [wellFormedL] at this; exact this.1
      have htl : wellFormedL tl = true := by
        have := h; simp [wellFormedL] at this; exact this.2
      obtain ⟨y, hy1, hy2, hy3⟩ := coerce_wellFormed x (p ++ "[" ++ toString i ++ "]") hx
      obtain ⟨ys, hys1, hys2, hys3⟩ := coerce_wellFormedL tl p (i + 1) htl
      refine ⟨.cons y ys, ?_, ?_, ?_⟩
      · simp [coerceItems, hy1, hys1]; rfl
      · simp [isWireL, hy2, hys2]
      · simp [skeletonL, hy3, hys3]

theorem coerce_wellFormedD : ∀ (kvs : PyDict), wellFormedD kvs = true →
    ∃ rs, coerceValues kvs = .ok rs ∧ isWireD rs = true ∧ skeletonD rs = skeletonD kvs
  | .nil, _ => ⟨.nil, rfl, rfl, rfl⟩
  | .cons k v tl, h => by
      have hv : wellFormed v = true := by
        have := h; simp [wellFormedD] at this; exact this.1
      have htl : wellFormedD tl = true := by
        have := h; simp [wellFormedD] at this; exact this.2
      obtain ⟨w, hw1, hw2, hw3⟩ :=
        coerce_wellFormed v "f\x7bjson_path\x7d[\x7bk\x7d]" hv
      obtain ⟨ws, hws1, hws2, hws3⟩ := coerce_wellFormedD tl htl
      refine ⟨.cons k w ws, ?_, ?_, ?_⟩
      · simp [coerceValues, hw1, hws1]; rfl
      · simp [isWireD, hw2, hws2]
      · simp [skeletonD, hw3, hws3]

end

theorem pydict_induction (motive : PyDict → Prop) (hnil : motive .nil)
    (hcons : ∀ k v tl, motive tl → motive (.cons k v tl)) : ∀ d, motive d
  | .nil => hnil
  | .cons k v tl => hcons k v tl (pydict_induction motive hnil hcons tl)

theorem PyDict.lookup_replace_self : ∀ (d : PyDict) (k : String) (v : PyVal),
    d.hasKey k = true → (d.replace k v).lookup k = some v := by
  intro d k v h
  induction d using pydict_induction with
  | hnil => simp [PyDict.hasKey, PyDict.lookup] at h
  | hcons k' w tl ih =>
    by_cases hk : k' = k
    · subst hk
      simp [PyDict.replace, PyDict.lookup]
    · have hk' : (k' == k) = false := by simp [hk]
      simp only [PyDict.hasKey, PyDict.lookup, hk', if_false] at h
      simp only [PyDict.replace, PyDict.lookup, hk', if_false]
      exact ih h

theorem PyDict.lookup_replace_other : ∀ (d : PyDict) (k : String) (v : PyVal) (key : String),
    key ≠ k → (d.replace k v).lookup key = d.lookup key := by
  intro d k v key hne
  induction d using pydict_induction with
  | hnil => rfl
  | hcons k' w tl ih =>
    by_cases hk : k' = key
    · subst hk
      have hkk : (k' == k) = false := by
        simp only [beq_eq_false_iff_ne, ne_eq]
        exact hne
      simp [PyDict.replace, PyDict.lookup, hkk]
    · have hk' : (k' == key) = false := by simp [hk]
      simp only [PyDict.replace, PyDict.lookup, hk', if_false]
      exact ih

theorem PyDict.lookup_push_self : ∀ (d : PyDict) (k : String) (v : PyVal),
    d.hasKey k = false → (d.push k v).lookup k = some v := by
  intro d k v h
  induction d using pydict_induction with
  | hnil => simp [PyDict.push, PyDict.lookup]
  | hcons k' w tl ih =>
    have hk' : (k' == k) = false := by
      rcases hbe : (k' == k) with _ | _
      · rfl
      · simp only [PyDict.hasKey, PyDict.lookup, hbe, if_true, Option.isSome_some] at h
        exact h
    simp only [PyDict.hasKey, PyDict.lookup, hk', if_false] at h
    simp only [PyDict.push, PyDict.lookup, hk', if_false]
    exact ih h

theorem PyDict.lookup_push_other : ∀ (d : PyDict) (k : String) (v : PyVal) (key : String),
    key ≠ k → (d.push k v).lookup key = d.lookup key := by
  intro d k v key hne
  induction d using pydict_induction with
  | hnil =>
    have : (k == key) = false := by simp; exact fun h => hne h.symm
    simp [PyDict.push, PyDict.lookup, this]
  | hcons k' w tl ih =>
    by_cases hk : k' = key
    · subst hk
      simp [PyDict.push, PyDict.lookup]
    · have hk' : (k' == key) = false := by simp [hk]
      simp only [PyDict.push, PyDict.lookup, hk', if_false]
      exact ih

theorem PyDict.lookup_set_self (d : PyDict) (k : String) (v : PyVal) :
    (d.set k v).lookup k = some v := by
  unfold PyDict.set
  rcases h : d.hasKey k with _ | _
  · simp only [Bool.false_eq_true, if_false]
    exact PyDict.lookup_push_self d k v h
  · simp only [if_true]
    exact PyDict.lookup_replace_self d k v h

theorem PyDict.lookup_set_other (d : PyDict) (k : String) (v : PyVal) (key : String)
    (hne : key ≠ k) : (d.set k v).lookup key = d.lookup key := by
  unfold PyDict.set
  rcases d.hasKey k with _ | _
  · simp only [Bool.false_eq_true, if_false]
    exact PyDict.lookup_push_other d k v key hne
  · simp only [if_true]
    exact PyDict.lookup_replace_other d k v key hne

theorem PyDict.lookup_eq_none_iff (d : PyDict) (k : String) :
    d.lookup k = none ↔ k ∉ d.keys := by
  induction d using pydict_induction with
  | hnil => simp [PyDict.lookup, PyDict.keys]
  | hcons k' w tl ih =>
    by_cases hk : k' = k
    · subst hk
      simp [PyDict.lookup, PyDict.keys]
    · have hk' : (k' == k) = false := by simp [hk]
      simp only [PyDict.lookup, PyDict.keys, hk', Bool.false_eq_true, if_false, ih,
        List.mem_cons]
      constructor
      · intro hnot
        intro hor
        rcases hor with he | hm
        · exact hk he.symm
        · exact hnot hm
      · intro hnot hm
        exact hnot (Or.inr hm)

theorem PyDict.update_lookup : ∀ (np : PyDict), np.keys.Nodup → ∀ (d : PyDict) (k : String),
    (d.update np).lookup k =
      match np.lookup k with
      | some v => some v
      | none => d.lookup k := by
  intro np
  induction np using pydict_induction with
  | hnil => intro _ d k; rfl
  | hcons k0 v0 tl ih =>
    intro hnd d k
    have hk0 : k0 ∉ tl.keys := by
      simp [PyDict.keys] at hnd; exact hnd.1
    have htl : tl.keys.Nodup := by
      simp [PyDict.keys] at hnd; exact hnd.2
    show ((d.set k0 v0).update tl).lookup k = _
    rw [ih htl]
    by_cases hk : k = k0
    · subst hk
      have h0 : tl.lookup k = none := (PyDict.lookup_eq_none_iff tl k).mpr hk0
      simp only [h0, PyDict.lookup, beq_self_eq_true, if_true]
      exact PyDict.lookup_set_self d k v0
    · have hk' : (k0 == k) = false := by simp; exact fun h => hk h.symm
      simp only [PyDict.lookup, hk', if_false]
      rcases htk : tl.lookup k with _ | v
      · exact PyDict.lookup_set_other d k0 v0 k hk
      · rfl

theorem monitorLoop_spec (taskName : String) :
    ∀ (script : List RunState) (i p : Nat) (hi : i < script.length),
      (∀ j (hj : j < i), (script.get ⟨j, hj.trans hi⟩).isTerminal = false) →
      (script.get ⟨i, hi⟩).isTerminal = true →
      monitorLoop taskName p script = some (mkOutcome taskName (p + i + 1) (script.get ⟨i, hi⟩)) := by
  intro script
  induction script with
  | nil => intro i p hi; exact absurd hi (by simp)
  | cons s rest ih =>
    intro i p hi hmin hterm
    cases i with
    | zero =>
      simp only [List.get] at hterm
      simp only [monitorLoop, hterm, if_true, List.get, mkOutcome]
      rcases hs : s.isSuccessful with _ | _
      · simp [hs]
      · simp [hs]
    | succ i' =>
      have h0 : s.isTerminal = false := hmin 0 (Nat.succ_pos i')
      simp only [monitorLoop, h0, Bool.false_eq_true, if_false]
      have hi' : i' < rest.length := Nat.lt_of_succ_lt_succ hi
      have := ih i' (p + 1) hi'
        (fun j hj => hmin (j + 1) (Nat.succ_lt_succ hj))
        (by simpa using hterm)
      rw [this]
      have : p + 1 + i' + 1 = p + (i' + 1) + 1 := by omega
      rw [this]
      rfl

/-- C4: a scripted status sequence whose first terminal element sits at
index `i` makes the lifecycle monitor issue exactly `i + 1` status
queries; if that terminal state is successful the run method returns the
submitted run id, otherwise a `PrefectException` carrying the task name
and the terminal state description is raised after the same number of
queries. -/
theorem monitor_polls_to_first_terminal (taskName runId : String) (script : List RunState)
    (i : Nat) (hi : i < script.length)
    (hmin : ∀ j (hj : j < i), (script.get ⟨j, hj.trans hi⟩).isTerminal = false)
    (hterm : (script.get ⟨i, hi⟩).isTerminal = true) :
    ((script.get ⟨i, hi⟩).isSuccessful = true →
      _handle_databricks_task_execution taskName script = some (.success (i + 1)) ∧
      submitRunOutcome runId taskName script = some (.ok runId)) ∧
    ((script.get ⟨i, hi⟩).isSuccessful = false →
      _handle_databricks_task_execution taskName script =
        some (.failure (i + 1)
          (taskName ++ " failed with terminal state: " ++ (script.get ⟨i, hi⟩).describe)) ∧
      submitRunOutcome runId taskName script =
        some (.error
          (taskName ++ " failed with terminal state: " ++ (script.get ⟨i, hi⟩).describe))) := by
  have hrun : _handle_databricks_task_execution taskName script =
      some (mkOutcome taskName (0 + i + 1) (script.get ⟨i, hi⟩)) :=
    monitorLoop_spec taskName script i 0 hi hmin hterm
  rw [Nat.zero_add] at hrun
  constructor
  · intro hs
    have h1 : _handle_databricks_task_execution taskName script = some (.success (i + 1)) := by
      rw [hrun, mkOutcome, hs]; rfl
    exact ⟨h1, by simp [submitRunOutcome, h1]⟩
  · intro hs
    have h1 : _handle_databricks_task_execution taskName script =
        some (.failure (i + 1)
          (taskName ++ " failed with terminal state: " ++ (script.get ⟨i, hi⟩).describe)) := by
      rw [hrun, mkOutcome, hs]; rfl
    exact ⟨h1, by simp [submitRunOutcome, h1]⟩

theorem monitor_polls_witness :
    _handle_databricks_task_execution "t" [.pending, .running, .success] =
        some (.success 3) ∧
    submitRunOutcome "rid" "t" [.pending, .running, .success] = some (.ok "rid") ∧
    _handle_databricks_task_execution "t" [.pending, .failed] =
        some (.failure 2 "t failed with terminal state: FAILED") ∧
    submitRunOutcome "rid" "t" [.pending, .failed] =
        some (.error "t failed with terminal state: FAILED") := by
  have h1 := monitor_polls_to_first_terminal "t" "rid" [.pending, .running, .success] 2
    (by decide) (by intro j hj; interval_cases j
                    · rfl
                    · rfl) (by rfl)
  have h2 := monitor_polls_to_first_terminal "t" "rid" [.pending, .failed] 1
    (by decide) (by intro j hj; interval_cases j
                    · rfl) (by rfl)
  exact ⟨(h1.1 rfl).1, (h1.1 rfl).2, (h2.2 rfl).1, (h2.2 rfl).2⟩

/-- C5: leaf coercion on `{"tasks": [{"weird_field": <object>}]}` does
fail, but the reported path is the uninterpolated literal text
`f{json_path}[{k}]` (source line 44 passes that literal as `json_path`),
not the interpolated `json[tasks][0][weird_field]` the contract
requires. -/
theorem coerce_path_not_interpolated_for_dict_keys :
    _deep_string_coerce
        (.dict (.cons "tasks"
          (.list (.cons (.dict (.cons "weird_field" (.obj "<class 'object'>") .nil)) .nil))
          .nil)) "json" =
      .error
        "Type <class 'object'> used for parameter f\x7bjson_path\x7d[\x7bk\x7d] is not a number or a string" ∧
    _deep_string_coerce
        (.dict (.cons "tasks"
          (.list (.cons (.dict (.cons "weird_field" (.obj "<class 'object'>") .nil)) .nil))
          .nil)) "json" ≠
      .error
        "Type <class 'object'> used for parameter json[tasks][0][weird_field] is not a number or a string" := by
  refine ⟨rfl, ?_⟩
  intro h
  rw [show _deep_string_coerce
      (.dict (.cons "tasks"
        (.list (.cons (.dict (.cons "weird_field" (.obj "<class 'object'>") .nil)) .nil))
        .nil)) "json" =
      Except.error
        "Type <class 'object'> used for parameter f\x7bjson_path\x7d[\x7bk\x7d] is not a number or a string"
    from rfl] at h
  simp only [Except.error.injEq] at h
  exact absurd h (by decide)

/-- C8: on any value containing only strings, numbers, booleans, `None`,
lists and dicts, leaf coercion succeeds, its result has only string and
`None` leaves and the same skeleton (list lengths, element order and
dict keys in order), strings and `None` pass through unchanged, and
numbers and booleans become their `str` form. -/
theorem coerce_wire_tree (v : PyVal) (p : String) (h : wellFormed v = true) :
    (∃ r, _deep_string_coerce v p = .ok r ∧ isWire r = true ∧ skeleton r = skeleton v) ∧
    (∀ s q, _deep_string_coerce (.str s) q = .ok (.str s)) ∧
    (∀ q, _deep_string_coerce .null q = .ok .null) ∧
    (∀ n q, _deep_string_coerce (.int n) q = .ok (.str (toString n))) ∧
    (∀ b q, _deep_string_coerce (.bool b) q = .ok (.str (if b then "True" else "False"))) :=
  ⟨coerce_wellFormed v p h, fun _ _ => rfl, fun _ => rfl, fun _ _ => rfl, fun _ _ => rfl⟩

theorem coerce_wire_tree_witness :
    wellFormed exWireVal = true ∧
    (∃ r, _deep_string_coerce exWireVal "json" = .ok r ∧ isWire r = true ∧
      skeleton r = skeleton exWireVal) :=
  ⟨rfl, (coerce_wire_tree exWireVal "json" rfl).1⟩

theorem setOpt_lookup_other (j : PyDict) (key : String) (o : Option PyVal) (k : String)
    (hne : k ≠ key) : (setOpt j key o).lookup k = j.lookup k := by
  cases o with
  | none => rfl
  | some v => exact PyDict.lookup_set_other j key v k hne

theorem setOpt_lookup_self (j : PyDict) (key : String) (v : PyVal) :
    (setOpt j key (some v)).lookup key = some v :=
  PyDict.lookup_set_self j key v

theorem submitRun_merge_lookup_other (json : PyDict) (sjt nt nc eci lib : Option PyVal)
    (rn : Option String) (ts : Option PyVal) (k : String) (hk : k ≠ "run_name") :
    (DatabricksSubmitRun_merge json sjt nt nc eci lib rn ts).lookup k =
      (submitRunSets json sjt nt nc eci lib rn ts).lookup k := by
  simp only [DatabricksSubmitRun_merge]
  rcases hkey : (submitRunSets json sjt nt nc eci lib rn ts).hasKey "run_name" with _ | _
  · simp only [hkey, Bool.false_eq_true, if_false]
    exact PyDict.lookup_set_other _ "run_name" _ k hk
  · simp only [hkey, if_true]

/-- C7: on the single-task submission path every supplied named
parameter replaces the raw payload's value for its top-level key
wholesale; in particular a raw `{"run_name": "r1"}` merged with a named
override `run_name="r2"` carries `run_name="r2"`. -/
theorem submitRun_named_overrides_win (json : PyDict)
    (sjt nt nc eci lib ts : Option PyVal) (rn : Option String) :
    (∀ v, sjt = some v →
      (DatabricksSubmitRun_merge json sjt nt nc eci lib rn ts).lookup "spark_jar_task" = some v) ∧
    (∀ v, nt = some v →
      (DatabricksSubmitRun_merge json sjt nt nc eci lib rn ts).lookup "notebook_task" = some v) ∧
    (∀ v, nc = some v →
      (DatabricksSubmitRun_merge json sjt nt nc eci lib rn ts).lookup "new_cluster" = some v) ∧
    (∀ v, eci = some v →
      (DatabricksSubmitRun_merge json sjt nt nc eci lib rn ts).lookup "existing_cluster_id" = some v) ∧
    (∀ v, lib = some v →
      (DatabricksSubmitRun_merge json sjt nt nc eci lib rn ts).lookup "libraries" = some v) ∧
    (∀ s, rn = some s →
      (DatabricksSubmitRun_merge json sjt nt nc eci lib rn ts).lookup "run_name" = some (.str s)) ∧
    (∀ v, ts = some v →
      (DatabricksSubmitRun_merge json sjt nt nc eci lib rn ts).lookup "timeout_seconds" = some v) ∧
    (DatabricksSubmitRun_merge (.cons "run_name" (.str "r1") .nil)
        none none none none none (some "r2") none).lookup "run_name" = some (.str "r2") := by
  refine ⟨?_, ?_, ?_, ?_, ?_, ?_, ?_, rfl⟩
  · intro v hv
    subst hv
    rw [submitRun_merge_lookup_other json _ nt nc eci lib rn ts _ (by decide)]
    unfold submitRunSets
    rw [setOpt_lookup_other _ _ ts _ (by decide),
      setOpt_lookup_other _ _ (rn.map .str) _ (by decide),
      setOpt_lookup_other _ _ lib _ (by decide),
      setOpt_lookup_other _ _ eci _ (by decide),
      setOpt_lookup_other _ _ nc _ (by decide),
      setOpt_lookup_other _ _ nt _ (by decide)]
    exact setOpt_lookup_self json _ v
  · intro v hv
    subst hv
    rw [submitRun_merge_lookup_other json sjt _ nc eci lib rn ts _ (by decide)]
    unfold submitRunSets
    rw [setOpt_lookup_other _ _ ts _ (by decide),
      setOpt_lookup_other _ _ (rn.map .str) _ (by decide),
      setOpt_lookup_other _ _ lib _ (by decide),
      setOpt_lookup_other _ _ eci _ (by decide),
      setOpt_lookup_other _ _ nc _ (by decide)]
    exact setOpt_lookup_self _ _ v
  · intro v hv
    subst hv
    rw [submitRun_merge_lookup_other json sjt nt _ eci lib rn ts _ (by decide)]
    unfold submitRunSets
    rw [setOpt_lookup_other _ _ ts _ (by decide),
      setOpt_lookup_other _ _ (rn.map .str) _ (by decide),
      setOpt_lookup_other _ _ lib _ (by decide),
      setOpt_lookup_other _ _ eci _ (by decide)]
    exact setOpt_lookup_self _ _ v
  · intro v hv
    subst hv
    rw [submitRun_merge_lookup_other json sjt nt nc _ lib rn ts _ (by decide)]
    unfold submitRunSets
    rw [setOpt_lookup_other _ _ ts _ (by decide),
      setOpt_lookup_other _ _ (rn.map .str) _ (by decide),
      setOpt_lookup_other _ _ lib _ (by decide)]
    exact setOpt_lookup_self _ _ v
  · intro v hv
    subst hv
    rw [submitRun_merge_lookup_other json sjt nt nc eci _ rn ts _ (by decide)]
    unfold submitRunSets
    rw [setOpt_lookup_other _ _ ts _ (by decide),
      setOpt_lookup_other _ _ (rn.map .str) _ (by decide)]
    exact setOpt_lookup_self _ _ v
  · intro s hs
    subst hs
    have hsets : (submitRunSets json sjt nt nc eci lib (some s) ts).lookup "run_name" =
        some (.str s) := by
      unfold submitRunSets
      rw [setOpt_lookup_other _ _ ts _ (by decide)]
      exact setOpt_lookup_self _ _ (.str s)
    have hhas : (submitRunSets json sjt nt nc eci lib (some s) ts).hasKey "run_name" = true := by
      unfold PyDict.hasKey
      rw [hsets]
      rfl
    simp only [DatabricksSubmitRun_merge, hhas, if_true]
    exact hsets
  · intro v hv
    subst hv
    rw [submitRun_merge_lookup_other json sjt nt nc eci lib rn _ _ (by decide)]
    unfold submitRunSets
    exact setOpt_lookup_self _ _ v

theorem submitRun_named_overrides_win_witness :
    (DatabricksSubmitRun_merge (.cons "run_name" (.str "r1") .nil)
        none none none none none (some "r2") none).lookup "run_name" = some (.str "r2") ∧
    (DatabricksSubmitRun_merge (.cons "notebook_task" (.str "old") .nil)
        none (some (.str "new")) none none none none none).lookup "notebook_task" =
      some (.str "new") :=
  ⟨(submitRun_named_overrides_win PyDict.nil none none none none none none none).2.2.2.2.2.2.2,
    (submitRun_named_overrides_win (.cons "notebook_task" (.str "old") .nil)
      none (some (.str "new")) none none none none none).2.1 (.str "new") rfl⟩

/-- C6: on the run-now path a raw `notebook_params` mapping and the
named `notebook_params` override are merged key by key — every raw key
survives unless the override carries the same key, in which case the
override's value wins — and the example raw `{"notebook_params":
{"a":"1"}}` with override `{"b":"2"}` produces `{"a":"1","b":"2"}`. -/
theorem runNow_notebook_params_merged_by_key (json np m : PyDict)
    (job_id python_params spark_submit_params jar_params : Option PyVal)
    (hm : json.lookup "notebook_params" = some (.dict m))
    (hjob : job_id = none)
    (hnp : np.keys.Nodup) :
    (∃ j, DatabricksRunNow_merge json job_id (some np) python_params spark_submit_params
        jar_params = .ok j ∧
      j.lookup "notebook_params" = some (.dict (m.update np)) ∧
      ∀ k, (m.update np).lookup k =
        match np.lookup k with
        | some v => some v
        | none => m.lookup k) ∧
    DatabricksRunNow_merge (.cons "notebook_params" (.dict (.cons "a" (.str "1") .nil)) .nil)
        none (some (.cons "b" (.str "2") .nil)) none none none =
      .ok (.cons "notebook_params"
        (.dict (.cons "a" (.str "1") (.cons "b" (.str "2") .nil))) .nil) := by
  subst hjob
  refine ⟨⟨setOpt (setOpt (setOpt
      (json.set "notebook_params" (.dict (m.update np)))
      "python_params" python_params)
      "spark_submit_params" spark_submit_params)
      "jar_params" jar_params, ?_, ?_, ?_⟩, rfl⟩
  · have hstep : notebookStep (setOpt json "job_id" none) (some np) =
        pure (json.set "notebook_params" (.dict (m.update np))) := by
      show notebookStep json (some np) = _
      unfold notebookStep
      rw [hm]
    simp only [DatabricksRunNow_merge, hstep]
    rfl
  · rw [setOpt_lookup_other _ _ jar_params _ (by decide),
      setOpt_lookup_other _ _ spark_submit_params _ (by decide),
      setOpt_lookup_other _ _ python_params _ (by decide)]
    exact PyDict.lookup_set_self json _ _
  · intro k
    exact PyDict.update_lookup np hnp m k

theorem runNow_notebook_params_merged_by_key_witness :
    ∃ j, DatabricksRunNow_merge
        (.cons "notebook_params" (.dict (.cons "a" (.str "1") .nil)) .nil)
        none (some (.cons "b" (.str "2") .nil)) none none none = .ok j ∧
      j.lookup "notebook_params" =
        some (.dict ((PyDict.cons "a" (.str "1") .nil).update (.cons "b" (.str "2") .nil))) ∧
      ∀ k, ((PyDict.cons "a" (.str "1") .nil).update (.cons "b" (.str "2") .nil)).lookup k =
        match (PyDict.cons "b" (.str "2") .nil).lookup k with
        | some v => some v
        | none => (PyDict.cons "a" (.str "1") .nil).lookup k :=
  (runNow_notebook_params_merged_by_key
    (.cons "notebook_params" (.dict (.cons "a" (.str "1") .nil)) .nil)
    (.cons "b" (.str "2") .nil) (.cons "a" (.str "1") .nil)
    none none none none rfl rfl (by simp [PyDict.keys])).1

theorem Heap.get_set_self (h : Heap) (r : Nat) (d : PyDict) (hr : r < h.dicts.length) :
    (h.set r d).get r = d := by
  unfold Heap.get Heap.set
  simp only [List.getD]
  rw [List.get?_eq_getElem?, List.getElem?_set_eq_of_lt d hr]
  rfl

/-- C10: the named-parameter merges of `DatabricksSubmitRun.run` and
`DatabricksRunNow.run` write through the very dict object the caller
passed as `json` — after a run the caller's object holds the merged
keys (here the defaulted `run_name`), a second run reads them back, and
`DatabricksSubmitRun` additionally rebinds the task's `json` attribute
to the freshly coerced wire tree instead of the caller's object. -/
theorem run_merges_through_caller_reference :
    (∀ (h : Heap) (r : Nat) (sjt nt nc eci lib ts : Option PyVal) (rn : Option String),
      r < h.dicts.length →
      (DatabricksSubmitRun_run h r sjt nt nc eci lib rn ts).heap.get r =
        DatabricksSubmitRun_merge (h.get r) sjt nt nc eci lib rn ts ∧
      (DatabricksSubmitRun_run h r sjt nt nc eci lib rn ts).selfJson =
        _deep_string_coerce
          (.dict (DatabricksSubmitRun_merge (h.get r) sjt nt nc eci lib rn ts)) "json") ∧
    (Heap.get ⟨[PyDict.cons "a" (.int 1) .nil]⟩ 0).hasKey "run_name" = false ∧
    (DatabricksSubmitRun_run ⟨[PyDict.cons "a" (.int 1) .nil]⟩ 0
        none none none none none none none).heap.get 0 =
      .cons "a" (.int 1) (.cons "run_name" (.str "Run Submitted by Prefect") .nil) ∧
    ((DatabricksSubmitRun_run ⟨[PyDict.cons "a" (.int 1) .nil]⟩ 0
        none none none none none none none).heap.get 0).hasKey "run_name" = true ∧
    (DatabricksSubmitRun_run (DatabricksSubmitRun_run ⟨[PyDict.cons "a" (.int 1) .nil]⟩ 0
        none none none none none none none).heap 0
        none none none none none none none).heap.get 0 =
      (DatabricksSubmitRun_run ⟨[PyDict.cons "a" (.int 1) .nil]⟩ 0
        none none none none none none none).heap.get 0 ∧
    (DatabricksSubmitRun_run ⟨[PyDict.cons "a" (.int 1) .nil]⟩ 0
        none none none none none none none).selfJson =
      .ok (.dict (.cons "a" (.str "1")
        (.cons "run_name" (.str "Run Submitted by Prefect") .nil))) ∧
    (∃ res, DatabricksRunNow_run
        ⟨[PyDict.cons "notebook_params" (.dict (.cons "a" (.str "1") .nil)) .nil]⟩ 0
        none (some (.cons "b" (.str "2") .nil)) none none none = .ok res ∧
      res.heap.get 0 = .cons "notebook_params"
        (.dict (.cons "a" (.str "1") (.cons "b" (.str "2") .nil))) .nil) := by
  refine ⟨?_, rfl, rfl, rfl, rfl, rfl, ⟨_, rfl, rfl⟩⟩
  intro h r sjt nt nc eci lib ts rn hr
  constructor
  · exact Heap.get_set_self h r _ hr
  · rfl

theorem alts_induction (motive : Alts → Prop) (hnil : motive .nil)
    (hcons : ∀ m tl, motive tl → motive (.cons m tl)) : ∀ a, motive a
  | .nil => hnil
  | .cons m tl => hcons m tl (alts_induction motive hnil hcons tl)

theorem fields_induction (motive : Fields → Prop) (hnil : motive .nil)
    (hcons : ∀ k o t tl, motive tl → motive (.cons k o t tl)) : ∀ f, motive f
  | .nil => hnil
  | .cons k o t tl => hcons k o t tl (fields_induction motive hnil hcons tl)

theorem decodeField_not_found : ∀ (flds : Fields) (k : String) (v : PyVal),
    (Fields.names flds).contains k = false →
    decodeField flds k v = .error (.keyError k) := by
  intro flds k v h
  induction flds using fields_induction with
  | hnil => rfl
  | hcons k' o t tl ih =>
    have hmem : k ∉ k' :: tl.names := by
      intro hm
      have hc : (k' :: tl.names).contains k = true := List.elem_iff.mpr hm
      rw [Fields.names] at h
      rw [hc] at h
      cases h
    have hkk : k ≠ k' := fun he => hmem (by rw [he]; exact List.mem_cons_self _ _)
    have hne : (k' == k) = false := by
      rw [Bool.beq_comm]
      exact beq_eq_false_iff_ne.mpr hkk
    have htl : tl.names.contains k = false := by
      rcases hc : tl.names.contains k with _ | _
      · rfl
      · exact absurd (List.elem_iff.mp hc)
          (fun hmm => hmem (List.mem_cons_of_mem _ hmm))
    show (if (k' == k) = true then _ else decodeField tl k v) = _
    rw [hne]
    simp only [Bool.false_eq_true, if_false]
    exact ih htl

/-- C1 counterexample: a tagged union whose single record alternative
has field set `{x}` decodes the mapping `{y: 1}` (which matches no
alternative) by returning the input unchanged — no error at all — and
the record schema itself, fed the same mapping, fails with a bare
`KeyError "y"` rather than any typed error naming a path. -/
theorem decode_no_match_counterexample :
    altsNoMatch (.cons recX .nil) (.dict dictY) = true ∧
    _deep_from_dict (.union (.cons recX .nil)) (.dict dictY) = .ok (.prim (.dict dictY)) ∧
    _deep_from_dict recX (.dict dictY) = .error (.keyError "y") :=
  ⟨rfl, rfl, rfl⟩

/-- C1 as the code has it: a mapping input matching none of a union's
alternatives is returned unchanged (the loop of source lines 108-116
falls through to line 134), and a record schema fed a mapping whose
first key is not a declared field fails with an untyped `KeyError`
naming that key (source line 125), not a `SchemaMismatchError` naming a
path. -/
theorem decode_union_no_match_and_unknown_key (alts : Alts) (kvs : PyDict)
    (hno : altsNoMatch alts (.dict kvs) = true) :
    _deep_from_dict (.union alts) (.dict kvs) = .ok (.prim (.dict kvs)) ∧
    (∀ (rn : String) (flds : Fields) (k : String) (v : PyVal) (tl : PyDict),
      (Fields.names flds).contains k = false →
      _deep_from_dict (.record rn flds) (.dict (.cons k v tl)) = .error (.keyError k)) := by
  constructor
  · show decodeUnion alts (.dict kvs) = .ok (.prim (.dict kvs))
    induction alts using alts_induction with
    | hnil => rfl
    | hcons m rest ih =>
      rw [altsNoMatch] at hno
      simp only [Bool.and_eq_true, Bool.not_eq_true'] at hno
      obtain ⟨hm, hrest⟩ := hno
      cases m with
      | prim => exact ih hrest
      | listOf t => exact ih hrest
      | union as => exact ih hrest
      | enum en ms =>
        rw [altMatches] at hm
        show (if enumValueMatches ms (.dict kvs) = true then _ else decodeUnion rest (.dict kvs)) = _
        rw [hm]
        simp only [Bool.false_eq_true, if_false]
        exact ih hrest
      | record rn flds =>
        rw [altMatches] at hm
        show (if sameKeySet (Fields.names flds) kvs.keys = true then _
          else decodeUnion rest (.dict kvs)) = _
        rw [hm]
        simp only [Bool.false_eq_true, if_false]
        exact ih hrest
  · intro rn flds k v tl hk
    show (mapDecodeDict (fun k v => decodeField flds k v) (.cons k v tl)).bind _ = _
    show ((decodeField flds k v).bind fun d =>
      (mapDecodeDict (fun k v => decodeField flds k v) tl).bind fun rest =>
        pure ((k, d) :: rest)).bind _ = _
    rw [decodeField_not_found flds k v hk]
    rfl

theorem decode_union_no_match_witness :
    altsNoMatch (.cons recX .nil) (.dict dictY) = true ∧
    _deep_from_dict (.union (.cons recX .nil)) (.dict dictY) = .ok (.prim (.dict dictY)) ∧
    _deep_from_dict (.record "A" (.cons "x" false .prim .nil)) (.dict (.cons "y" (.int 1) .nil)) =
      .error (.keyError "y") :=
  ⟨rfl, (decode_union_no_match_and_unknown_key (.cons recX .nil) dictY rfl).1,
    (decode_union_no_match_and_unknown_key (.cons recX .nil) dictY rfl).2
      "A" (.cons "x" false .prim .nil) "y" (.int 1) .nil rfl⟩

/-- C2 counterexample: for the enum `E` with the single member `A = "b"`,
the input `"b"` equals a member's underlying value yet decoding raises
`KeyError "b"` (`E["b"]` is a NAME lookup, source line 104), while the
input `"A"` — no member's underlying value — succeeds and produces the
member. -/
theorem decode_enum_by_value_counterexample :
    enumValueMatches [("A", "b")] (.str "b") = true ∧
    _deep_from_dict sEnumAb (.str "b") = .error (.keyError "b") ∧
    (¬ ∃ m ∈ [("A", "b")], ("A" : String) = m.2) ∧
    _deep_from_dict sEnumAb (.str "A") = .ok (.enumMember "E" "A" "b") :=
  ⟨rfl, rfl, by decide, rfl⟩

theorem decode_enum_str (en : String) (ms : List (String × String)) (s : String) :
    _deep_from_dict (.enum en ms) (.str s) =
      match ms.find? (fun m => m.1 == s) with
      | some m => .ok (.enumMember en m.1 m.2)
      | none => .error (.keyError s) := rfl

/-- C2 as the code has it: for an enumeration schema with
duplicate-free member names, decoding succeeds exactly when the input
is the NAME of some member, and produces the member of that name
(`Enum[input]`, source line 104) — member values play no role. -/
theorem decode_enum_by_name (en : String) (ms : List (String × String)) (v : PyVal)
    (d : DVal) (hnd : (ms.map Prod.fst).Nodup) :
    _deep_from_dict (.enum en ms) v = .ok d ↔
      ∃ m ∈ ms, v = .str m.1 ∧ d = .enumMember en m.1 m.2 := by
  cases v with
  | str s =>
    rw [decode_enum_str]
    rcases hf : ms.find? (fun m => m.1 == s) with _ | m
    · rw [hf]
      show Except.error (DecErr.keyError s) = .ok d ↔ _
      simp only [reduceCtorEq, false_iff]
      intro ⟨m, hm, hv, hd⟩
      have hs : m.1 = s := (PyVal.str.inj hv).symm
      have := List.find?_eq_none.mp hf m hm
      simp [hs] at this
    · rw [hf]
      show Except.ok (DVal.enumMember en m.1 m.2) = .ok d ↔ _
      have hm1 := List.find?_some hf
      have hmem : m ∈ ms := List.mem_of_find?_eq_some hf
      have hs : m.1 = s := by simpa using hm1
      constructor
      · intro h
        have hd : d = .enumMember en m.1 m.2 := (Except.ok.inj h).symm
        exact ⟨m, hmem, by rw [hs], hd⟩
      · intro ⟨m', hm', hv, hd⟩
        have hs' : m'.1 = s := (PyVal.str.inj hv).symm
        have hmm : m' = m :=
          List.inj_on_of_nodup_map hnd hm' hmem (by rw [hs', hs])
        subst hmm
        rw [hd]
  | int n =>
    show Except.error _ = .ok d ↔ _
    simp
  | bool b =>
    show Except.error _ = .ok d ↔ _
    simp
  | null =>
    show Except.error _ = .ok d ↔ _
    simp
  | list xs =>
    show Except.error DecErr.indexError = .ok d ↔ _
    simp
  | dict kvs =>
    show Except.error _ = .ok d ↔ _
    simp
  | obj t =>
    show Except.error _ = .ok d ↔ _
    simp

theorem decode_enum_by_name_witness :
    _deep_from_dict (.enum "Permission" [("CAN_MANAGE", "CAN_MANAGE")])
        (.str "CAN_MANAGE") = .ok (.enumMember "Permission" "CAN_MANAGE" "CAN_MANAGE") :=
  (decode_enum_by_name "Permission" [("CAN_MANAGE", "CAN_MANAGE")]
      (.str "CAN_MANAGE") (.enumMember "Permission" "CAN_MANAGE" "CAN_MANAGE")
      (by simp)).mpr
    ⟨("CAN_MANAGE", "CAN_MANAGE"), by simp, rfl, rfl⟩

/-- C3: the union walk evaluates alternatives in declared order — the
head is applied iff it matches (exact key-set equality for a record
alternative), otherwise the walk continues with the remaining
alternatives unchanged — and on the concrete union of `A{x,y}` and
`B{x,y,z}` with input `{x:1,y:2,z:3}`, `A` does not match, `B` does,
and both declaration orders decode to the same `B` instance. -/
theorem decode_union_first_match (m : Schema) (rest : Alts) (kvs : PyDict) :
    ((altMatches m (.dict kvs) = true →
      _deep_from_dict (.union (.cons m rest)) (.dict kvs) = applyAlt m (.dict kvs)) ∧
     (altMatches m (.dict kvs) = false →
      _deep_from_dict (.union (.cons m rest)) (.dict kvs) =
        _deep_from_dict (.union rest) (.dict kvs))) ∧
    altMatches sA (.dict kvsXYZ) = false ∧
    altMatches sB (.dict kvsXYZ) = true ∧
    _deep_from_dict (.union (.cons sA (.cons sB .nil))) (.dict kvsXYZ) = .ok decodedB ∧
    _deep_from_dict (.union (.cons sB (.cons sA .nil))) (.dict kvsXYZ) = .ok decodedB ∧
    _deep_from_dict sB (.dict kvsXYZ) = .ok decodedB := by
  refine ⟨⟨?_, ?_⟩, rfl, rfl, rfl, rfl, rfl⟩
  · intro hm
    cases m with
    | prim => exact Bool.noConfusion hm
    | listOf t => exact Bool.noConfusion hm
    | union as => exact Bool.noConfusion hm
    | enum en ms =>
      rw [altMatches] at hm
      show (if enumValueMatches ms (.dict kvs) = true then enumByName en ms (.dict kvs)
        else decodeUnion rest (.dict kvs)) = _
      rw [hm]
      rfl
    | record rn flds =>
      rw [altMatches] at hm
      show (if sameKeySet (Fields.names flds) kvs.keys = true
        then _deep_from_dict (.record rn flds) (.dict kvs)
        else decodeUnion rest (.dict kvs)) = _
      rw [hm]
      rfl
  · intro hm
    cases m with
    | prim => rfl
    | listOf t => rfl
    | union as => rfl
    | enum en ms =>
      rw [altMatches] at hm
      show (if enumValueMatches ms (.dict kvs) = true then enumByName en ms (.dict kvs)
        else decodeUnion rest (.dict kvs)) = _
      rw [hm]
      rfl
    | record rn flds =>
      rw [altMatches] at hm
      show (if sameKeySet (Fields.names flds) kvs.keys = true
        then _deep_from_dict (.record rn flds) (.dict kvs)
        else decodeUnion rest (.dict kvs)) = _
      rw [hm]
      rfl

theorem decode_union_first_match_witness :
    _deep_from_dict (.union (.cons sB (.cons sA .nil))) (.dict kvsXYZ) =
        applyAlt sB (.dict kvsXYZ) ∧
    _deep_from_dict (.union (.cons sA (.cons sB .nil))) (.dict kvsXYZ) =
        _deep_from_dict (.union (.cons sB .nil)) (.dict kvsXYZ) :=
  ⟨((decode_union_first_match sB (.cons sA .nil) kvsXYZ).1).1 rfl,
    ((decode_union_first_match sA (.cons sB .nil) kvsXYZ).1).2 rfl⟩

theorem run_merges_through_caller_reference_witness :
    (DatabricksSubmitRun_run ⟨[PyDict.cons "a" (.int 1) .nil]⟩ 0
        (some (.str "jar")) none none none none none none).heap.get 0 =
      DatabricksSubmitRun_merge
        (Heap.get ⟨[PyDict.cons "a" (.int 1) .nil]⟩ 0)
        (some (.str "jar")) none none none none none none :=
  ((run_merges_through_caller_reference.1 ⟨[PyDict.cons "a" (.int 1) .nil]⟩ 0
    (some (.str "jar")) none none none none none none (by decide)).1)

theorem pylist_induction (motive : PyList → Prop) (hnil : motive .nil)
    (hcons : ∀ x tl, motive tl → motive (.cons x tl)) : ∀ xs, motive xs
  | .nil => hnil
  | .cons x tl => hcons x tl (pylist_induction motive hnil hcons tl)

theorem Dfields_induction (motive : DFields → Prop) (hnil : motive .nil)
    (hcons : ∀ k dv tl, motive tl → motive (.cons k dv tl)) : ∀ df, motive df
  | .nil => hnil
  | .cons k dv tl => hcons k dv tl (Dfields_induction motive hnil hcons tl)

theorem sizeOf_memL : ∀ (xs : PyList) (x : PyVal), MemL x xs → sizeOf x < sizeOf xs := by
  intro xs
  induction xs using pylist_induction with
  | hnil => intro x hx; cases hx
  | hcons y tl ih =>
    intro x hx
    rcases hx with rfl | hx
    · rw [PyList.cons.sizeOf_spec]; omega
    · have := ih x hx
      rw [PyList.cons.sizeOf_spec]; omega

theorem sizeOf_memA : ∀ (alts : Alts) (m : Schema), MemA m alts → sizeOf m < sizeOf alts := by
  intro alts
  induction alts using alts_induction with
  | hnil => intro m hm; cases hm
  | hcons y tl ih =>
    intro m hm
    rcases hm with rfl | hm
    · rw [Alts.cons.sizeOf_spec]; omega
    · have := ih m hm
      rw [Alts.cons.sizeOf_spec]; omega

theorem sizeOf_lookup : ∀ (kvs : PyDict) (k : String) (v : PyVal),
    kvs.lookup k = some v → sizeOf v < sizeOf kvs := by
  intro kvs
  induction kvs using pydict_induction with
  | hnil => intro k v h; cases h
  | hcons k' w tl ih =>
    intro k v h
    rw [PyDict.lookup] at h
    by_cases hk : (k' == k) = true
    · rw [hk] at h
      simp only [if_true] at h
      cases h
      rw [PyDict.cons.sizeOf_spec]; omega
    · rw [Bool.not_eq_true] at hk
      rw [hk] at h
      simp only [Bool.false_eq_true, if_false] at h
      have := ih k v h
      rw [PyDict.cons.sizeOf_spec]; omega

theorem sizeOf_lookupTy : ∀ (flds : Fields) (k : String) (o : Bool) (t : Schema),
    flds.lookupTy k = some (o, t) → sizeOf t < sizeOf flds := by
  intro flds
  induction flds using fields_induction with
  | hnil => intro k o t h; cases h
  | hcons k' o' t' tl ih =>
    intro k o t h
    rw [Fields.lookupTy] at h
    by_cases hk : (k' == k) = true
    · rw [hk] at h
      simp only [if_true, Option.some.injEq, Prod.mk.injEq] at h
      obtain ⟨-, rfl⟩ := h
      rw [Fields.cons.sizeOf_spec]; omega
    · rw [Bool.not_eq_true] at hk
      rw [hk] at h
      simp only [Bool.false_eq_true, if_false] at h
      have := ih k o t h
      rw [Fields.cons.sizeOf_spec]; omega

theorem sameKeySet_iff (a b : List String) :
    sameKeySet a b = true ↔ ((∀ x, x ∈ a → x ∈ b) ∧ (∀ x, x ∈ b → x ∈ a)) := by
  rw [sameKeySet]
  simp only [Bool.and_eq_true, List.all_eq_true]
  constructor
  · intro ⟨h1, h2⟩
    exact ⟨fun x hx => List.elem_iff.mp (h1 x hx), fun x hx => List.elem_iff.mp (h2 x hx)⟩
  · intro ⟨h1, h2⟩
    exact ⟨fun x hx => List.elem_iff.mpr (h1 x hx), fun x hx => List.elem_iff.mpr (h2 x hx)⟩

theorem decodeField_eq : ∀ (flds : Fields) (k : String) (v : PyVal),
    decodeField flds k v =
      match flds.lookupTy k with
      | some p => _deep_from_dict p.2 v
      | none => .error (.keyError k) := by
  intro flds
  induction flds using fields_induction with
  | hnil => intro k v; rfl
  | hcons k' o t tl ih =>
    intro k v
    show (if (k' == k) = true then _deep_from_dict t v else decodeField tl k v) = _
    rw [Fields.lookupTy]
    by_cases hk : (k' == k) = true
    · rw [hk]
      rfl
    · rw [Bool.not_eq_true] at hk
      rw [hk]
      simp only [Bool.false_eq_true, if_false]
      exact ih k v

theorem readyField_eq : ∀ (flds : Fields) (k : String) (v : PyVal),
    readyField flds k v =
      match flds.lookupTy k with
      | some p => ready p.2 v
      | none => true := by
  intro flds
  induction flds using fields_induction with
  | hnil => intro k v; rfl
  | hcons k' o t tl ih =>
    intro k v
    show (if (k' == k) = true then ready t v else readyField tl k v) = _
    rw [Fields.lookupTy]
    by_cases hk : (k' == k) = true
    · rw [hk]
      rfl
    · rw [Bool.not_eq_true] at hk
      rw [hk]
      simp only [Bool.false_eq_true, if_false]
      exact ih k v

theorem lookupTy_mem_names : ∀ (flds : Fields) (k : String),
    (flds.lookupTy k).isSome = true ↔ k ∈ flds.names := by
  intro flds
  induction flds using fields_induction with
  | hnil =>
    intro k
    simp [Fields.lookupTy, Fields.names]
  | hcons k' o t tl ih =>
    intro k
    rw [Fields.lookupTy, Fields.names]
    by_cases hk : (k' == k) = true
    · have : k' = k := by simpa using hk
      subst this
      simp [hk]
    · rw [Bool.not_eq_true] at hk
      rw [hk]
      simp only [Bool.false_eq_true, if_false, List.mem_cons, ih]
      constructor
      · intro h; exact Or.inr h
      · intro h
        rcases h with rfl | h
        · simp at hk
        · exact h

theorem wfFields_lookupTy : ∀ (flds : Fields) (k : String) (o : Bool) (t : Schema),
    wfFields flds = true → flds.lookupTy k = some (o, t) → wfSchema t = true := by
  intro flds
  induction flds using fields_induction with
  | hnil => intro k o t _ h; cases h
  | hcons k' o' t' tl ih =>
    intro k o t hwf h
    rw [wfFields] at hwf
    simp only [Bool.and_eq_true] at hwf
    rw [Fields.lookupTy] at h
    by_cases hk : (k' == k) = true
    · rw [hk] at h
      simp only [if_true, Option.some.injEq, Prod.mk.injEq] at h
      obtain ⟨-, rfl⟩ := h
      exact hwf.1
    · rw [Bool.not_eq_true] at hk
      rw [hk] at h
      simp only [Bool.false_eq_true, if_false] at h
      exact ih k o t hwf.2 h

theorem allDictVals_lookup : ∀ (kvs : PyDict) (f : String → PyVal → Bool) (k : String) (v : PyVal),
    allDictVals f kvs = true → kvs.lookup k = some v → f k v = true := by
  intro kvs
  induction kvs using pydict_induction with
  | hnil => intro f k v _ h; cases h
  | hcons k' w tl ih =>
    intro f k v hall h
    rw [allDictVals] at hall
    simp only [Bool.and_eq_true] at hall
    rw [PyDict.lookup] at h
    by_cases hk : (k' == k) = true
    · rw [hk] at h
      simp only [if_true, Option.some.injEq] at h
      subst h
      have : k' = k := by simpa using hk
      subst this
      exact hall.1
    · rw [Bool.not_eq_true] at hk
      rw [hk] at h
      simp only [Bool.false_eq_true, if_false] at h
      exact ih f k v hall.2 h

theorem lookup_isSome_mem_keys : ∀ (kvs : PyDict) (k : String),
    (kvs.lookup k).isSome = true ↔ k ∈ kvs.keys := by
  intro kvs k
  rcases h : kvs.lookup k with _ | v
  · simp only [Option.isSome_none, Bool.false_eq_true, false_iff]
    exact (PyDict.lookup_eq_none_iff kvs k).mp h
  · simp only [Option.isSome_some, true_iff]
    by_contra hmem
    rw [← PyDict.lookup_eq_none_iff] at hmem
    rw [h] at hmem
    cases hmem

theorem allList_memL : ∀ (xs : PyList) (f : PyVal → Bool) (x : PyVal),
    allList f xs = true → MemL x xs → f x = true := by
  intro xs
  induction xs using pylist_induction with
  | hnil => intro f x _ hx; cases hx
  | hcons y tl ih =>
    intro f x hall hx
    rw [allList] at hall
    simp only [Bool.and_eq_true] at hall
    rcases hx with rfl | hx
    · exact hall.1
    · exact ih f x hall.2 hx

theorem except_bind_ok {a b g : Type} (x : a) (f : a → Except g b) :
    (Except.ok x).bind f = f x := rfl

theorem except_bind_error {a b g : Type} (e : g) (f : a → Except g b) :
    (Except.error e : Except g a).bind f = .error e := rfl

theorem except_ok_of_bind_ok {a b g : Type} {x : Except g a} {f : a → Except g b} {r : b}
    (h : x.bind f = .ok r) : ∃ y, x = .ok y ∧ f y = .ok r := by
  cases x with
  | error e => cases h
  | ok y => exact ⟨y, rfl, h⟩

theorem mapDecodeDict_cons (f : String → PyVal → Except DecErr DVal) (k : String)
    (v : PyVal) (tl : PyDict) :
    mapDecodeDict f (.cons k v tl) =
      (f k v).bind (fun d => (mapDecodeDict f tl).bind (fun rest => .ok ((k, d) :: rest))) :=
  rfl

theorem mapDecodeList_cons (f : PyVal → Except DecErr DVal) (x : PyVal) (tl : PyList) :
    mapDecodeList f (.cons x tl) =
      (f x).bind (fun d => (mapDecodeList f tl).bind (fun ds => .ok (.cons d ds))) :=
  rfl

theorem buildFields_cons (k : String) (o : Bool) (t : Schema) (tl : Fields)
    (args : List (String × DVal)) :
    buildFields (.cons k o t tl) args =
      (buildFields tl args).bind (fun rest =>
        match lookupArg args k with
        | some d => .ok (.cons k d rest)
        | none => if o then .ok (.cons k (.prim .null) rest) else .error (.typeError k)) :=
  rfl

theorem lookupArg_cons_self (k : String) (dv : DVal) (X : List (String × DVal)) :
    lookupArg ((k, dv) :: X) k = some dv := by
  simp [lookupArg]

theorem lookupArg_cons_ne (k' k : String) (dv : DVal) (X : List (String × DVal))
    (h : k' ≠ k) : lookupArg ((k, dv) :: X) k' = lookupArg X k' := by
  have : (k == k') = false := by
    simp only [beq_eq_false_iff_ne, ne_eq]
    exact fun he => h he.symm
  simp [lookupArg, List.find?, this]

theorem mapDecodeDict_ok : ∀ (flds : Fields) (kvs : PyDict) (args : List (String × DVal)),
    mapDecodeDict (fun k v => decodeField flds k v) kvs = .ok args →
    args.map Prod.fst = kvs.keys ∧
    (∀ k v, kvs.lookup k = some v →
      ∃ dv, lookupArg args k = some dv ∧ decodeField flds k v = .ok dv) := by
  intro flds kvs
  induction kvs using pydict_induction with
  | hnil =>
    intro args h
    have : ([] : List (String × DVal)) = args := Except.ok.inj h
    subst this
    exact ⟨rfl, fun k v hkv => by cases hkv⟩
  | hcons k v tl ih =>
    intro args h
    rw [mapDecodeDict_cons] at h
    obtain ⟨d, hd, h⟩ := except_ok_of_bind_ok h
    obtain ⟨rest, hrest, h⟩ := except_ok_of_bind_ok h
    have : ((k, d) :: rest) = args := Except.ok.inj h
    subst this
    obtain ⟨ihkeys, ihlook⟩ := ih rest hrest
    constructor
    · rw [List.map_cons, ihkeys]
      rfl
    · intro k' v' hkv
      rw [PyDict.lookup] at hkv
      by_cases hk : (k == k') = true
      · rw [hk] at hkv
        simp only [if_true, Option.some.injEq] at hkv
        subst hkv
        have hkk : k = k' := by simpa using hk
        subst hkk
        exact ⟨d, lookupArg_cons_self k d rest, hd⟩
      · rw [Bool.not_eq_true] at hk
        rw [hk] at hkv
        simp only [Bool.false_eq_true, if_false] at hkv
        obtain ⟨dv, hdv1, hdv2⟩ := ihlook k' v' hkv
        refine ⟨dv, ?_, hdv2⟩
        rw [lookupArg_cons_ne k' k d rest ?_]
        · exact hdv1
        · intro he
          subst he
          simp at hk

theorem buildFields_keys : ∀ (flds : Fields) (args : List (String × DVal)) (df : DFields),
    buildFields flds args = .ok df → df.keys = flds.names := by
  intro flds
  induction flds using fields_induction with
  | hnil =>
    intro args df h
    have : (DFields.nil) = df := Except.ok.inj h
    subst this
    rfl
  | hcons k o t tl ih =>
    intro args df h
    rw [buildFields_cons] at h
    obtain ⟨rest, hrest, h⟩ := except_ok_of_bind_ok h
    rcases hla : lookupArg args k with _ | dv
    · rw [hla] at h
      rcases o with _ | _
      · simp only [Bool.false_eq_true, if_false] at h
        cases h
      · simp only [if_true] at h
        have : (DFields.cons k (.prim .null) rest) = df := Except.ok.inj h
        subst this
        show k :: rest.keys = k :: tl.names
        rw [ih args rest hrest]
    · rw [hla] at h
      have : (DFields.cons k dv rest) = df := Except.ok.inj h
      subst this
      show k :: rest.keys = k :: tl.names
      rw [ih args rest hrest]

theorem buildFields_congr : ∀ (flds : Fields) (args1 args2 : List (String × DVal)),
    (∀ k, k ∈ flds.names → lookupArg args1 k = lookupArg args2 k) →
    buildFields flds args1 = buildFields flds args2 := by
  intro flds
  induction flds using fields_induction with
  | hnil => intro args1 args2 _; rfl
  | hcons k o t tl ih =>
    intro args1 args2 hsame
    rw [buildFields_cons, buildFields_cons]
    rw [ih args1 args2 (fun k' hk' => hsame k' (by rw [Fields.names]; exact List.mem_cons_of_mem _ hk'))]
    rw [hsame k (by rw [Fields.names]; exact List.mem_cons_self _ _)]

theorem buildFields_second : ∀ (flds0 flds : Fields) (args : List (String × DVal)) (df : DFields),
    (∀ k dv, lookupArg args k = some dv →
      decodeField flds0 k (encodeDVal dv) = .ok dv) →
    buildFields flds args = .ok df →
    (∀ k, k ∈ flds.names → (lookupArg args k).isSome = true) →
    mapDecodeDict (fun k v => decodeField flds0 k v) (encodeDFields df) = .ok (dfToArgs df) := by
  intro flds0 flds
  induction flds using fields_induction with
  | hnil =>
    intro args df _ h _
    have : (DFields.nil) = df := Except.ok.inj h
    subst this
    rfl
  | hcons k o t tl ih =>
    intro args df hrt h hpresent
    rw [buildFields_cons] at h
    obtain ⟨rest, hrest, h⟩ := except_ok_of_bind_ok h
    rcases hla : lookupArg args k with _ | dv
    · exfalso
      have := hpresent k (by rw [Fields.names]; exact List.mem_cons_self _ _)
      rw [hla] at this
      cases this
    · rw [hla] at h
      have : (DFields.cons k dv rest) = df := Except.ok.inj h
      subst this
      show mapDecodeDict _ (.cons k (encodeDVal dv) (encodeDFields rest)) = _
      rw [mapDecodeDict_cons]
      rw [hrt k dv hla]
      rw [except_bind_ok]
      rw [ih args rest hrt hrest
        (fun k' hk' => hpresent k' (by rw [Fields.names]; exact List.mem_cons_of_mem _ hk'))]
      rfl

theorem buildFields_third : ∀ (flds : Fields) (args : List (String × DVal)) (df : DFields),
    nodupKeys flds.names = true →
    buildFields flds args = .ok df →
    (∀ k, k ∈ flds.names → (lookupArg args k).isSome = true) →
    buildFields flds (dfToArgs df) = .ok df := by
  intro flds
  induction flds using fields_induction with
  | hnil =>
    intro args df _ h _
    have : (DFields.nil) = df := Except.ok.inj h
    subst this
    rfl
  | hcons k o t tl ih =>
    intro args df hnd h hpresent
    rw [buildFields_cons] at h
    obtain ⟨rest, hrest, h⟩ := except_ok_of_bind_ok h
    rw [Fields.names, nodupKeys] at hnd
    simp only [Bool.and_eq_true, Bool.not_eq_true'] at hnd
    obtain ⟨hknotin, hndtl⟩ := hnd
    have hknotmem : k ∉ tl.names := by
      intro hm
      have : tl.names.contains k = true := List.elem_iff.mpr hm
      rw [this] at hknotin
      cases hknotin
    rcases hla : lookupArg args k with _ | dv
    · exfalso
      have := hpresent k (by rw [Fields.names]; exact List.mem_cons_self _ _)
      rw [hla] at this
      cases this
    · rw [hla] at h
      have : (DFields.cons k dv rest) = df := Except.ok.inj h
      subst this
      show buildFields (.cons k o t tl) ((k, dv) :: dfToArgs rest) = _
      rw [buildFields_cons]
      rw [buildFields_congr tl ((k, dv) :: dfToArgs rest) (dfToArgs rest)
        (fun k' hk' => lookupArg_cons_ne k' k dv (dfToArgs rest)
          (fun he => hknotmem (he ▸ hk')))]
      rw [ih args rest hndtl hrest
        (fun k' hk' => hpresent k' (by rw [Fields.names]; exact List.mem_cons_of_mem _ hk'))]
      rw [except_bind_ok, lookupArg_cons_self]

theorem enumByName_encode (en : String) (ms : List (String × String)) (v : PyVal) (d : DVal)
    (hwf : ms.all (fun m => m.1 == m.2) = true)
    (h : enumByName en ms v = .ok d) : encodeDVal d = v := by
  cases v with
  | str s =>
    rw [enumByName] at h
    rcases hf : ms.find? (fun m => m.1 == s) with _ | m
    · rw [hf] at h
      cases h
    · rw [hf] at h
      have hd : (DVal.enumMember en m.1 m.2) = d := Except.ok.inj h
      subst hd
      have hmem : m ∈ ms := List.mem_of_find?_eq_some hf
      have hv : m.1 = s := by
        have := List.find?_some hf
        simpa using this
      have hnv : m.1 = m.2 := by
        have := List.all_eq_true.mp hwf m hmem
        simpa using this
      show PyVal.str m.2 = PyVal.str s
      rw [← hnv, hv]
  | int n => cases h
  | bool b => cases h
  | null => cases h
  | list xs => cases h
  | dict kvs => cases h
  | obj t => cases h

theorem except_map_ok {a b g : Type} (x : a) (f : a → b) :
    (Except.ok x : Except g a).map f = .ok (f x) := rfl

theorem except_map_error {a b g : Type} (e : g) (f : a → b) :
    (Except.error e : Except g a).map f = .error e := rfl

theorem except_ok_of_map_ok {a b g : Type} {x : Except g a} {f : a → b} {r : b}
    (h : x.map f = .ok r) : ∃ y, x = .ok y ∧ f y = r := by
  cases x with
  | error e => cases h
  | ok y => exact ⟨y, rfl, Except.ok.inj h⟩

theorem schema_sizeOf_pos : ∀ (s : Schema), 0 < sizeOf s := by
  intro s
  cases s with
  | prim => simp
  | enum en ms => rw [Schema.enum.sizeOf_spec]; omega
  | record rn flds => rw [Schema.record.sizeOf_spec]; omega
  | listOf t => rw [Schema.listOf.sizeOf_spec]; omega
  | union alts => rw [Schema.union.sizeOf_spec]; omega

theorem rt_passthrough (s : Schema) (v : PyVal) (d : DVal)
    (hv : _deep_from_dict s v = .ok (.prim v)) (hdec : _deep_from_dict s v = .ok d) :
    _deep_from_dict s (encodeDVal d) = .ok d ∧ shapeRel v (encodeDVal d) := by
  have hd : (DVal.prim v) = d := by
    rw [hv] at hdec
    exact Except.ok.inj hdec
  subst hd
  exact ⟨hv, Or.inl rfl⟩

theorem rt_list (t : Schema) : ∀ (xs : PyList) (ds : DList),
    (∀ x, MemL x xs → ∀ d', ready t x = true → _deep_from_dict t x = .ok d' →
      _deep_from_dict t (encodeDVal d') = .ok d') →
    allList (fun x => ready t x) xs = true →
    mapDecodeList (fun x => _deep_from_dict t x) xs = .ok ds →
    mapDecodeList (fun x => _deep_from_dict t x) (encodeDList ds) = .ok ds := by
  intro xs
  induction xs using pylist_induction with
  | hnil =>
    intro ds _ _ h
    have : (DList.nil) = ds := Except.ok.inj h
    subst this
    rfl
  | hcons x tl ih =>
    intro ds hrt hready h
    rw [mapDecodeList_cons] at h
    obtain ⟨d, hd, h⟩ := except_ok_of_bind_ok h
    obtain ⟨ds', hds', h⟩ := except_ok_of_bind_ok h
    have : (DList.cons d ds') = ds := Except.ok.inj h
    subst this
    rw [allList] at hready
    simp only [Bool.and_eq_true] at hready
    show mapDecodeList _ (.cons (encodeDVal d) (encodeDList ds')) = _
    rw [mapDecodeList_cons]
    rw [hrt x (Or.inl rfl) d hready.1 hd]
    rw [except_bind_ok]
    rw [ih ds' (fun x' hx' => hrt x' (Or.inr hx')) hready.2 hds']
    rfl

theorem enumValueMatches_dict (ms : List (String × String)) (kvs : PyDict) :
    enumValueMatches ms (.dict kvs) = false := by
  simp [enumValueMatches]

theorem enumValueMatches_list (ms : List (String × String)) (xs : PyList) :
    enumValueMatches ms (.list xs) = false := by
  simp [enumValueMatches]

theorem rt_union : ∀ (alts : Alts) (v : PyVal) (d : DVal),
    (∀ m, MemA m alts → ∀ d',
      wfSchema m = true → ready m v = true → _deep_from_dict m v = .ok d' →
      _deep_from_dict m (encodeDVal d') = .ok d' ∧ shapeRel v (encodeDVal d')) →
    wfAlts alts = true → readyUnion alts v = true →
    decodeUnion alts v = .ok d →
    decodeUnion alts (encodeDVal d) = .ok d ∧ shapeRel v (encodeDVal d) := by
  intro alts
  induction alts using alts_induction with
  | hnil =>
    intro v d _ _ _ hdec
    have hd : (DVal.prim v) = d := Except.ok.inj hdec
    subst hd
    exact ⟨rfl, Or.inl rfl⟩
  | hcons m rest ih =>
    intro v d ihmem hwf hready hdec
    rw [wfAlts] at hwf
    simp only [Bool.and_eq_true] at hwf
    obtain ⟨hwfm, hwfrest⟩ := hwf
    have ihmemrest : ∀ m', MemA m' rest → ∀ d',
        wfSchema m' = true → ready m' v = true → _deep_from_dict m' v = .ok d' →
        _deep_from_dict m' (encodeDVal d') = .ok d' ∧ shapeRel v (encodeDVal d') :=
      fun m' hm' => ihmem m' (Or.inr hm')
    cases m with
    | prim =>
      have hdec' : decodeUnion rest v = .ok d := hdec
      have hready' : readyUnion rest v = true := hready
      obtain ⟨h1, hsh⟩ := ih v d ihmemrest hwfrest hready' hdec'
      exact ⟨h1, hsh⟩
    | listOf t =>
      have hdec' : decodeUnion rest v = .ok d := hdec
      have hready' : readyUnion rest v = true := hready
      obtain ⟨h1, hsh⟩ := ih v d ihmemrest hwfrest hready' hdec'
      exact ⟨h1, hsh⟩
    | union as =>
      have hdec' : decodeUnion rest v = .ok d := hdec
      have hready' : readyUnion rest v = true := hready
      obtain ⟨h1, hsh⟩ := ih v d ihmemrest hwfrest hready' hdec'
      exact ⟨h1, hsh⟩
    | enum en ms =>
      rcases hc : enumValueMatches ms v with _ | _
      · have hdec' : decodeUnion rest v = .ok d := by
          rw [show decodeUnion (.cons (.enum en ms) rest) v =
            (if enumValueMatches ms v = true then enumByName en ms v
             else decodeUnion rest v) from rfl, hc] at hdec
          simpa using hdec
        have hready' : readyUnion rest v = true := by
          rw [show readyUnion (.cons (.enum en ms) rest) v =
            (if enumValueMatches ms v = true then true else readyUnion rest v) from rfl,
            hc] at hready
          simpa using hready
        obtain ⟨h1, hsh⟩ := ih v d ihmemrest hwfrest hready' hdec'
        refine ⟨?_, hsh⟩
        rcases hsh with heq | ⟨kvs, kvs', hv, hw, hk⟩ | ⟨xs, ys, hv, hw⟩
        · rw [heq]
          exact hdec
        · rw [hw]
          show (if enumValueMatches ms (.dict kvs') = true then enumByName en ms (.dict kvs')
            else decodeUnion rest (.dict kvs')) = _
          rw [enumValueMatches_dict]
          simp only [Bool.false_eq_true, if_false]
          rw [← hw]
          exact h1
        · rw [hw]
          show (if enumValueMatches ms (.list ys) = true then enumByName en ms (.list ys)
            else decodeUnion rest (.list ys)) = _
          rw [enumValueMatches_list]
          simp only [Bool.false_eq_true, if_false]
          rw [← hw]
          exact h1
      · have hdec' : enumByName en ms v = .ok d := by
          rw [show decodeUnion (.cons (.enum en ms) rest) v =
            (if enumValueMatches ms v = true then enumByName en ms v
             else decodeUnion rest v) from rfl, hc] at hdec
          simpa using hdec
        have henc : encodeDVal d = v := enumByName_encode en ms v d hwfm hdec'
        rw [henc]
        exact ⟨hdec, Or.inl rfl⟩
    | record rn flds =>
      cases v with
      | dict kvs =>
        rcases hc : sameKeySet (Fields.names flds) kvs.keys with _ | _
        · have hdec' : decodeUnion rest (.dict kvs) = .ok d := by
            rw [show decodeUnion (.cons (.record rn flds) rest) (.dict kvs) =
              (if sameKeySet (Fields.names flds) kvs.keys = true
               then _deep_from_dict (.record rn flds) (.dict kvs)
               else decodeUnion rest (.dict kvs)) from rfl, hc] at hdec
            simpa using hdec
          have hready' : readyUnion rest (.dict kvs) = true := by
            rw [show readyUnion (.cons (.record rn flds) rest) (.dict kvs) =
              (if sameKeySet (Fields.names flds) kvs.keys = true
               then ready (.record rn flds) (.dict kvs)
               else readyUnion rest (.dict kvs)) from rfl, hc] at hready
            simpa using hready
          obtain ⟨h1, hsh⟩ := ih (.dict kvs) d ihmemrest hwfrest hready' hdec'
          refine ⟨?_, hsh⟩
          rcases hsh with heq | ⟨kvs0, kvs', hv, hw, hk⟩ | ⟨xs, ys, hv, hw⟩
          · rw [heq]
            exact hdec
          · cases hv
            rw [hw]
            have hc' : sameKeySet (Fields.names flds) kvs'.keys = false := by
              rcases hcc : sameKeySet (Fields.names flds) kvs'.keys with _ | _
              · rfl
              · exfalso
                obtain ⟨h1', h2'⟩ := (sameKeySet_iff _ _).mp hcc
                obtain ⟨h3', h4'⟩ := (sameKeySet_iff _ _).mp hk
                have : sameKeySet (Fields.names flds) kvs.keys = true :=
                  (sameKeySet_iff _ _).mpr
                    ⟨fun x hx => h3' x (h1' x hx), fun x hx => h2' x (h4' x hx)⟩
                rw [this] at hc
                cases hc
            show (if sameKeySet (Fields.names flds) kvs'.keys = true
              then _deep_from_dict (.record rn flds) (.dict kvs')
              else decodeUnion rest (.dict kvs')) = _
            rw [hc']
            simp only [Bool.false_eq_true, if_false]
            rw [← hw]
            exact h1
          · cases hv
        · have hdec' : _deep_from_dict (.record rn flds) (.dict kvs) = .ok d := by
            rw [show decodeUnion (.cons (.record rn flds) rest) (.dict kvs) =
              (if sameKeySet (Fields.names flds) kvs.keys = true
               then _deep_from_dict (.record rn flds) (.dict kvs)
               else decodeUnion rest (.dict kvs)) from rfl, hc] at hdec
            simpa using hdec
          have hready' : ready (.record rn flds) (.dict kvs) = true := by
            rw [show readyUnion (.cons (.record rn flds) rest) (.dict kvs) =
              (if sameKeySet (Fields.names flds) kvs.keys = true
               then ready (.record rn flds) (.dict kvs)
               else readyUnion rest (.dict kvs)) from rfl, hc] at hready
            simpa using hready
          obtain ⟨h1, hsh⟩ := ihmem (.record rn flds) (Or.inl rfl) d hwfm hready' hdec'
          refine ⟨?_, hsh⟩
          rcases hsh with heq | ⟨kvs0, kvs', hv, hw, hk⟩ | ⟨xs, ys, hv, hw⟩
          · rw [heq]
            exact hdec
          · cases hv
            rw [hw]
            have hc' : sameKeySet (Fields.names flds) kvs'.keys = true := by
              obtain ⟨h1', h2'⟩ := (sameKeySet_iff _ _).mp hc
              obtain ⟨h3', h4'⟩ := (sameKeySet_iff _ _).mp hk
              exact (sameKeySet_iff _ _).mpr
                ⟨fun x hx => h4' x (h1' x hx), fun x hx => h2' x (h3' x hx)⟩
            show (if sameKeySet (Fields.names flds) kvs'.keys = true
              then _deep_from_dict (.record rn flds) (.dict kvs')
              else decodeUnion rest (.dict kvs')) = _
            rw [hc']
            simp only [if_true]
            rw [← hw]
            exact h1
          · cases hv
      | str sv => cases hdec
      | int n => cases hdec
      | bool b => cases hdec
      | null => cases hdec
      | list xs => cases hdec
      | obj ty => cases hdec

theorem encodeDFields_keys : ∀ (df : DFields), (encodeDFields df).keys = df.keys := by
  intro df
  induction df using Dfields_induction with
  | hnil => rfl
  | hcons k dv tl ih =>
    show k :: (encodeDFields tl).keys = k :: tl.keys
    rw [ih]

theorem lookupArg_mem : ∀ (args : List (String × DVal)) (k : String) (dv : DVal),
    lookupArg args k = some dv → k ∈ args.map Prod.fst := by
  intro args k dv h
  rw [lookupArg] at h
  rcases hf : args.find? (fun a => a.1 == k) with _ | a
  · rw [hf] at h
    cases h
  · have hmem : a ∈ args := List.mem_of_find?_eq_some hf
    have hk : a.1 = k := by
      have := List.find?_some hf
      simpa using this
    rw [← hk]
    exact List.mem_map_of_mem Prod.fst hmem

theorem rt_record (rn : String) (flds : Fields) (kvs : PyDict) (d : DVal)
    (IH : ∀ (o : Bool) (t : Schema) (k : String) (w : PyVal),
      flds.lookupTy k = some (o, t) → kvs.lookup k = some w →
      ∀ d', wfSchema t = true → ready t w = true →
      _deep_from_dict t w = .ok d' → _deep_from_dict t (encodeDVal d') = .ok d')
    (hwf : wfSchema (.record rn flds) = true)
    (hready : ready (.record rn flds) (.dict kvs) = true)
    (hdec : _deep_from_dict (.record rn flds) (.dict kvs) = .ok d) :
    _deep_from_dict (.record rn flds) (encodeDVal d) = .ok d ∧
      shapeRel (.dict kvs) (encodeDVal d) := by
  have hwf' : (nodupKeys flds.names && wfFields flds) = true := hwf
  simp only [Bool.and_eq_true] at hwf'
  obtain ⟨hnd, hwff⟩ := hwf'
  have hready' : (flds.names.all (fun k => kvs.keys.contains k) &&
      nodupKeys kvs.keys && allDictVals (fun k v => readyField flds k v) kvs) = true := hready
  simp only [Bool.and_eq_true] at hready'
  obtain ⟨⟨hcover, hndk⟩, hrf⟩ := hready'
  have hdec' : (mapDecodeDict (fun k v => decodeField flds k v) kvs).bind
      (fun args => (buildFields flds args).map (fun df => DVal.record rn df)) = .ok d := hdec
  obtain ⟨args, hargs, hdec2⟩ := except_ok_of_bind_ok hdec'
  obtain ⟨df, hbf, hd⟩ := except_ok_of_map_ok hdec2
  subst hd
  obtain ⟨hkeys, hlook⟩ := mapDecodeDict_ok flds kvs args hargs
  have hpresent : ∀ k, k ∈ flds.names → (lookupArg args k).isSome = true := by
    intro k hk
    have hkc : kvs.keys.contains k = true := List.all_eq_true.mp hcover k hk
    have hmem : k ∈ kvs.keys := List.elem_iff.mp hkc
    have hsome : (kvs.lookup k).isSome = true := (lookup_isSome_mem_keys kvs k).mpr hmem
    rcases hv : kvs.lookup k with _ | v
    · rw [hv] at hsome
      cases hsome
    · obtain ⟨dv, hdv1, -⟩ := hlook k v hv
      rw [hdv1]
      rfl
  have hrt : ∀ k dv, lookupArg args k = some dv →
      decodeField flds k (encodeDVal dv) = .ok dv := by
    intro k dv hla
    have hkmem : k ∈ kvs.keys := by
      have := lookupArg_mem args k dv hla
      rw [hkeys] at this
      exact this
    have hsome : (kvs.lookup k).isSome = true := (lookup_isSome_mem_keys kvs k).mpr hkmem
    rcases hv : kvs.lookup k with _ | v
    · rw [hv] at hsome
      cases hsome
    · obtain ⟨dv', hdv1, hdv2⟩ := hlook k v hv
      rw [hla] at hdv1
      have : dv = dv' := Option.some.inj hdv1
      subst this
      rw [decodeField_eq] at hdv2
      rcases hlt : flds.lookupTy k with _ | p
      · rw [hlt] at hdv2
        cases hdv2
      · rw [hlt] at hdv2
        have hrfv : readyField flds k v = true := allDictVals_lookup kvs _ k v hrf hv
        rw [readyField_eq, hlt] at hrfv
        have hwft : wfSchema p.2 = true := wfFields_lookupTy flds k p.1 p.2 hwff (by rw [hlt])
        have hsecond := IH p.1 p.2 k v (by rw [hlt]) hv dv hwft hrfv hdv2
        rw [decodeField_eq, hlt]
        exact hsecond
  have hsecond := buildFields_second flds flds args df hrt hbf hpresent
  have hthird := buildFields_third flds args df hnd hbf hpresent
  constructor
  · show (mapDecodeDict (fun k v => decodeField flds k v) (encodeDFields df)).bind
      (fun args' => (buildFields flds args').map (fun df' => DVal.record rn df')) = _
    rw [hsecond, except_bind_ok, hthird, except_map_ok]
  · refine Or.inr (Or.inl ⟨kvs, encodeDFields df, rfl, rfl, ?_⟩)
    rw [encodeDFields_keys, buildFields_keys flds args df hbf]
    refine (sameKeySet_iff _ _).mpr ⟨?_, ?_⟩
    · intro x hx
      exact List.elem_iff.mp (List.all_eq_true.mp hcover x hx)
    · intro x hx
      have hsome : (kvs.lookup x).isSome = true := (lookup_isSome_mem_keys kvs x).mpr hx
      rcases hv : kvs.lookup x with _ | v
      · rw [hv] at hsome
        cases hsome
      · obtain ⟨dv, hdv1, hdv2⟩ := hlook x v hv
        rw [decodeField_eq] at hdv2
        rcases hlt : flds.lookupTy x with _ | p
        · rw [hlt] at hdv2
          cases hdv2
        · exact (lookupTy_mem_names flds x).mp (by rw [hlt]; rfl)

theorem rt_strong : ∀ (n : Nat) (s : Schema) (v : PyVal), sizeOf s + sizeOf v ≤ n → RT s v := by
  intro n
  induction n with
  | zero =>
    intro s v hle
    exfalso
    have := schema_sizeOf_pos s
    omega
  | succ n ihn =>
    intro s v hle d hwf hready hdec
    cases s with
    | prim =>
      cases v with
      | list xs =>
        rw [show _deep_from_dict .prim (.list xs) = .error .indexError from rfl] at hdec
        cases hdec
      | str sv => exact rt_passthrough _ _ _ rfl hdec
      | int nv => exact rt_passthrough _ _ _ rfl hdec
      | bool b => exact rt_passthrough _ _ _ rfl hdec
      | null => exact rt_passthrough _ _ _ rfl hdec
      | dict kvs => exact rt_passthrough _ _ _ rfl hdec
      | obj ty => exact rt_passthrough _ _ _ rfl hdec
    | listOf t =>
      cases v with
      | list xs =>
        have hdec' : (mapDecodeList (fun x => _deep_from_dict t x) xs).map DVal.list =
            .ok d := hdec
        obtain ⟨ds, hds, hd⟩ := except_ok_of_map_ok hdec'
        subst hd
        have hwft : wfSchema t = true := hwf
        have hra : allList (fun x => ready t x) xs = true := hready
        have hpt : ∀ x, MemL x xs → ∀ d', ready t x = true →
            _deep_from_dict t x = .ok d' →
            _deep_from_dict t (encodeDVal d') = .ok d' := by
          intro x hx d' hr hdx
          have hsx : sizeOf x < sizeOf xs := sizeOf_memL xs x hx
          have hlt : sizeOf t + sizeOf x ≤ n := by
            rw [Schema.listOf.sizeOf_spec, PyVal.list.sizeOf_spec] at hle
            omega
          exact (ihn t x hlt d' hwft hr hdx).1
        have hsecond := rt_list t xs ds hpt hra hds
        constructor
        · show (mapDecodeList (fun x => _deep_from_dict t x) (encodeDList ds)).map
            DVal.list = _
          rw [hsecond, except_map_ok]
        · exact Or.inr (Or.inr ⟨xs, encodeDList ds, rfl, rfl⟩)
      | str sv => exact rt_passthrough _ _ _ rfl hdec
      | int nv => exact rt_passthrough _ _ _ rfl hdec
      | bool b => exact rt_passthrough _ _ _ rfl hdec
      | null => exact rt_passthrough _ _ _ rfl hdec
      | dict kvs => exact rt_passthrough _ _ _ rfl hdec
      | obj ty => exact rt_passthrough _ _ _ rfl hdec
    | enum en ms =>
      cases v with
      | list xs =>
        rw [show _deep_from_dict (.enum en ms) (.list xs) = .error .indexError from rfl] at hdec
        cases hdec
      | str sv =>
        have hdec' : enumByName en ms (.str sv) = .ok d := hdec
        have henc := enumByName_encode en ms (.str sv) d hwf hdec'
        rw [henc]
        exact ⟨hdec, Or.inl rfl⟩
      | int nv =>
        have hdec' : enumByName en ms (.int nv) = .ok d := hdec
        have henc := enumByName_encode en ms (.int nv) d hwf hdec'
        rw [henc]
        exact ⟨hdec, Or.inl rfl⟩
      | bool b =>
        have hdec' : enumByName en ms (.bool b) = .ok d := hdec
        have henc := enumByName_encode en ms (.bool b) d hwf hdec'
        rw [henc]
        exact ⟨hdec, Or.inl rfl⟩
      | null =>
        have hdec' : enumByName en ms .null = .ok d := hdec
        have henc := enumByName_encode en ms .null d hwf hdec'
        rw [henc]
        exact ⟨hdec, Or.inl rfl⟩
      | dict kvs =>
        have hdec' : enumByName en ms (.dict kvs) = .ok d := hdec
        have henc := enumByName_encode en ms (.dict kvs) d hwf hdec'
        rw [henc]
        exact ⟨hdec, Or.inl rfl⟩
      | obj ty =>
        have hdec' : enumByName en ms (.obj ty) = .ok d := hdec
        have henc := enumByName_encode en ms (.obj ty) d hwf hdec'
        rw [henc]
        exact ⟨hdec, Or.inl rfl⟩
    | record rn flds =>
      cases v with
      | list xs =>
        rw [show _deep_from_dict (.record rn flds) (.list xs) = .error .indexError
          from rfl] at hdec
        cases hdec
      | dict kvs =>
        have IH : ∀ (o : Bool) (t : Schema) (k : String) (w : PyVal),
            flds.lookupTy k = some (o, t) → kvs.lookup k = some w →
            ∀ d', wfSchema t = true → ready t w = true →
            _deep_from_dict t w = .ok d' → _deep_from_dict t (encodeDVal d') = .ok d' := by
          intro o t k w hlt hlw d' hwft hrw hdw
          have h1 : sizeOf t < sizeOf flds := sizeOf_lookupTy flds k o t hlt
          have h2 : sizeOf w < sizeOf kvs := sizeOf_lookup kvs k w hlw
          have hle' : sizeOf t + sizeOf w ≤ n := by
            rw [Schema.record.sizeOf_spec, PyVal.dict.sizeOf_spec] at hle
            omega
          exact (ihn t w hle' d' hwft hrw hdw).1
        exact rt_record rn flds kvs d IH hwf hready hdec
      | str sv => exact rt_passthrough _ _ _ rfl hdec
      | int nv => exact rt_passthrough _ _ _ rfl hdec
      | bool b => exact rt_passthrough _ _ _ rfl hdec
      | null => exact rt_passthrough _ _ _ rfl hdec
      | obj ty => exact rt_passthrough _ _ _ rfl hdec
    | union alts =>
      have ihm : ∀ (w : PyVal), w = v → ∀ m, MemA m alts → ∀ d',
          wfSchema m = true → ready m w = true → _deep_from_dict m w = .ok d' →
          _deep_from_dict m (encodeDVal d') = .ok d' ∧ shapeRel w (encodeDVal d') := by
        intro w hwv m hm d' hwfm hrm hdm
        subst hwv
        have hsm : sizeOf m < sizeOf alts := sizeOf_memA alts m hm
        have hle' : sizeOf m + sizeOf w ≤ n := by
          rw [Schema.union.sizeOf_spec] at hle
          omega
        exact ihn m w hle' d' hwfm hrm hdm
      cases v with
      | list xs =>
        cases alts with
        | nil =>
          rw [show _deep_from_dict (.union .nil) (.list xs) = .error .indexError
            from rfl] at hdec
          cases hdec
        | cons a rest =>
          have hdec' : (mapDecodeList (fun x => _deep_from_dict a x) xs).map DVal.list =
              .ok d := hdec
          obtain ⟨ds, hds, hd⟩ := except_ok_of_map_ok hdec'
          subst hd
          have hwfa : wfSchema a = true := by
            have h : (wfSchema a && wfAlts rest) = true := hwf
            simp only [Bool.and_eq_true] at h
            exact h.1
          have hra : allList (fun x => ready a x) xs = true := hready
          have hpt : ∀ x, MemL x xs → ∀ d', ready a x = true →
              _deep_from_dict a x = .ok d' →
              _deep_from_dict a (encodeDVal d') = .ok d' := by
            intro x hx d' hr hdx
            have hsx : sizeOf x < sizeOf xs := sizeOf_memL xs x hx
            have hle' : sizeOf a + sizeOf x ≤ n := by
              rw [Schema.union.sizeOf_spec, Alts.cons.sizeOf_spec,
                PyVal.list.sizeOf_spec] at hle
              omega
            exact (ihn a x hle' d' hwfa hr hdx).1
          have hsecond := rt_list a xs ds hpt hra hds
          constructor
          · show (mapDecodeList (fun x => _deep_from_dict a x) (encodeDList ds)).map
              DVal.list = _
            rw [hsecond, except_map_ok]
          · exact Or.inr (Or.inr ⟨xs, encodeDList ds, rfl, rfl⟩)
      | str sv =>
        obtain ⟨h1, hsh⟩ := rt_union alts (.str sv) d (ihm (.str sv) rfl) hwf hready hdec
        refine ⟨?_, hsh⟩
        rcases hsh with heq | ⟨kvs0, kvs', hv, hw, hk⟩ | ⟨xs0, ys, hv, hw⟩
        · rw [heq]
          exact hdec
        · cases hv
        · cases hv
      | int nv =>
        obtain ⟨h1, hsh⟩ := rt_union alts (.int nv) d (ihm (.int nv) rfl) hwf hready hdec
        refine ⟨?_, hsh⟩
        rcases hsh with heq | ⟨kvs0, kvs', hv, hw, hk⟩ | ⟨xs0, ys, hv, hw⟩
        · rw [heq]
          exact hdec
        · cases hv
        · cases hv
      | bool b =>
        obtain ⟨h1, hsh⟩ := rt_union alts (.bool b) d (ihm (.bool b) rfl) hwf hready hdec
        refine ⟨?_, hsh⟩
        rcases hsh with heq | ⟨kvs0, kvs', hv, hw, hk⟩ | ⟨xs0, ys, hv, hw⟩
        · rw [heq]
          exact hdec
        · cases hv
        · cases hv
      | null =>
        obtain ⟨h1, hsh⟩ := rt_union alts .null d (ihm .null rfl) hwf hready hdec
        refine ⟨?_, hsh⟩
        rcases hsh with heq | ⟨kvs0, kvs', hv, hw, hk⟩ | ⟨xs0, ys, hv, hw⟩
        · rw [heq]
          exact hdec
        · cases hv
        · cases hv
      | obj ty =>
        obtain ⟨h1, hsh⟩ := rt_union alts (.obj ty) d (ihm (.obj ty) rfl) hwf hready hdec
        refine ⟨?_, hsh⟩
        rcases hsh with heq | ⟨kvs0, kvs', hv, hw, hk⟩ | ⟨xs0, ys, hv, hw⟩
        · rw [heq]
          exact hdec
        · cases hv
        · cases hv
      | dict kvs =>
        obtain ⟨h1, hsh⟩ := rt_union alts (.dict kvs) d (ihm (.dict kvs) rfl) hwf hready hdec
        refine ⟨?_, hsh⟩
        rcases hsh with heq | ⟨kvs0, kvs', hv, hw, hk⟩ | ⟨xs0, ys, hv, hw⟩
        · rw [heq]
          exact hdec
        · cases hv
          rw [hw]
          show decodeUnion alts (.dict kvs') = _
          rw [← hw]
          exact h1
        · cases hv

/-- C9 counterexample: for the enum schema `E` with member `A = "b"`,
decoding `"A"` succeeds, re-encoding the decoded member yields its
underlying value `"b"`, and decoding that re-encoding fails with
`KeyError "b"` (name lookup), so the round trip does not reproduce the
first decode result. -/
theorem decode_roundtrip_counterexample :
    _deep_from_dict sEnumAb (.str "A") = .ok (.enumMember "E" "A" "b") ∧
    encodeDVal (.enumMember "E" "A" "b") = .str "b" ∧
    _deep_from_dict sEnumAb (encodeDVal (.enumMember "E" "A" "b")) =
      .error (.keyError "b") ∧
    _deep_from_dict sEnumAb (encodeDVal (.enumMember "E" "A" "b")) ≠
      .ok (.enumMember "E" "A" "b") :=
  ⟨rfl, rfl, rfl, fun h => Except.noConfusion h⟩

/-- C9 amended: round-trip stability holds under two restrictions the
code forces: every enumeration member's underlying value must equal its
name (`wfSchema`, also requiring duplicate-free record field names), and
the input must supply every declared field of every record the decoder
reaches, with duplicate-free mapping keys (`ready`) — otherwise a
defaulted field or a by-name enum lookup breaks the re-decode.  Under
these conditions, whenever `decode(S, V)` succeeds, re-encoding the
result (records to mappings, enum members to their values, sequences
element-wise) and decoding again yields the same value. -/
theorem decode_roundtrip (s : Schema) (v : PyVal) (d : DVal)
    (hwf : wfSchema s = true) (hready : ready s v = true)
    (hdec : _deep_from_dict s v = .ok d) :
    _deep_from_dict s (encodeDVal d) = .ok d :=
  (rt_strong (sizeOf s + sizeOf v) s v le_rfl d hwf hready hdec).1

theorem decode_roundtrip_witness :
    wfSchema (.union (.cons sA (.cons sB .nil))) = true ∧
    ready (.union (.cons sA (.cons sB .nil))) (.dict kvsXYZ) = true ∧
    _deep_from_dict (.union (.cons sA (.cons sB .nil))) (.dict kvsXYZ) = .ok decodedB ∧
    _deep_from_dict (.union (.cons sA (.cons sB .nil))) (encodeDVal decodedB) =
      .ok decodedB :=
  ⟨rfl, rfl, rfl,
    decode_roundtrip (.union (.cons sA (.cons sB .nil))) (.dict kvsXYZ) decodedB
      rfl rfl rfl⟩

end Databricks
